import Mathlib

/-!
Shallow embedding of the install-tracking and package-ordering core of cargo:
`src/cargo/ops/common_for_install_and_uninstall.rs` (InstallTracker, the v1/v2
crate listings, check_upgrade, select_dep_pkg) and `src/cargo/core/package.rs`
(Package equality/hashing, PackageSet and its topological sort).

Modelling conventions:
* `BTreeSet<String>` is modelled as `Finset String` (canonical finite sets).
* `BTreeMap<K, V>` is modelled as an association list `List (K × V)`; the
  uniqueness of keys that `BTreeMap` guarantees is carried as an explicit
  `nodupKeys` hypothesis where a proof needs it.
* cargo's `SourceId` equality/ordering deliberately ignores the `precise`
  field; lookups therefore use the explicit `SourceId.eqKey`/`PackageId.eqKey`
  predicates rather than structural equality.
* A Rust `panic!`/`expect` is modelled by an `Option` result whose `none`
  value means "aborted".
* The filesystem check `dst.join(name).exists()` is modelled by membership in
  a `Finset String` of file names present in the destination directory.
-/

namespace Cargo

/-- Kind of a package source (the discriminant of cargo's `SourceKind`). -/
inductive SourceKind
  | path
  | git
  | registry
  | directory
deriving DecidableEq, Repr

/-- Numeric index used only to linearly order source kinds. -/
def SourceKind.idx : SourceKind → Nat
  | .path => 0
  | .git => 1
  | .registry => 2
  | .directory => 3

/-- A source identifier: kind, canonical url, and (for git) the precise
resolved revision.  cargo's `SourceId` equality and ordering ignore
`precise`. -/
structure SourceId where
  kind : SourceKind
  url : String
  precise : Option String
deriving DecidableEq, Repr

/-- `SourceId::is_path`. -/
def SourceId.is_path (s : SourceId) : Bool := s.kind == SourceKind.path

/-- `SourceId::is_git`. -/
def SourceId.is_git (s : SourceId) : Bool := s.kind == SourceKind.git

/-- The equality cargo's `PartialEq for SourceId` implements: kind and url,
with `precise` ignored. -/
def SourceId.eqKey (a b : SourceId) : Bool := a.kind == b.kind && a.url == b.url

/-- Sort key for `Ord for SourceId` (ignores `precise`). -/
def SourceId.key (s : SourceId) : Nat ×ₗ String := toLex (s.kind.idx, s.url)

/-- A semantic version.  The external `semver` crate is modelled by its
major/minor/patch triple with lexicographic ordering. -/
structure Version where
  major : Nat
  minor : Nat
  patch : Nat
deriving DecidableEq, Repr

/-- Sort key giving the lexicographic (major, minor, patch) order. -/
def Version.key (v : Version) : Nat ×ₗ Nat ×ₗ Nat :=
  toLex (v.major, toLex (v.minor, v.patch))

/-- A package identity: name, version and source of origin
(cargo's `PackageId`). -/
structure PackageId where
  name : String
  version : Version
  source_id : SourceId
deriving DecidableEq, Repr

/-- The equality cargo's `PartialEq for PackageId` implements (via
`SourceId`'s `precise`-ignoring equality). -/
def PackageId.eqKey (a b : PackageId) : Bool :=
  a.name == b.name && a.version == b.version && a.source_id.eqKey b.source_id

/-- Sort key for `Ord for PackageId`: name, then version, then source. -/
def PackageId.key (p : PackageId) :
    String ×ₗ (Nat ×ₗ Nat ×ₗ Nat) ×ₗ Nat ×ₗ String :=
  toLex (p.name, toLex (p.version.key, p.source_id.key))

/-- The order used by `Iterator::max` over `PackageId`s. -/
def PackageId.le (a b : PackageId) : Prop := a.key ≤ b.key

instance (a b : PackageId) : Decidable (PackageId.le a b) := by
  unfold PackageId.le
  infer_instance

/-- Kinds of build target relevant to `exe_names` and package selection. -/
inductive TargetKind
  | bin
  | exampleBin
  | exampleLib
  | lib
  | customBuild
deriving DecidableEq, Repr

/-- A build target (cargo's `Target`), reduced to the fields this module
reads: its name and kind. -/
structure Target where
  name : String
  kind : TargetKind
deriving DecidableEq, Repr

/-- `Target::is_bin`. -/
def Target.is_bin (t : Target) : Bool := t.kind == TargetKind.bin

/-- `Target::is_example` (binary or library example). -/
def Target.is_example (t : Target) : Bool :=
  t.kind == TargetKind.exampleBin || t.kind == TargetKind.exampleLib

/-- `Target::is_exe_example` (example built as an executable). -/
def Target.is_exe_example (t : Target) : Bool := t.kind == TargetKind.exampleBin

/-- `Target::is_executable` (a binary or an executable example). -/
def Target.is_executable (t : Target) : Bool := t.is_bin || t.is_exe_example

/-- A version requirement, reduced to what `select_dep_pkg` reads: its
display string and whether it is an exact (`=x.y.z`) requirement. -/
structure VersionReq where
  display : String
  is_exact : Bool
deriving DecidableEq, Repr

/-- A dependency request (cargo's `Dependency`), reduced to the fields this
module reads: the package name and the version requirement. -/
structure Dependency where
  package_name : String
  version_req : VersionReq
deriving DecidableEq, Repr

/-- A package: its identity, the path of its manifest (as a list of path
components), its dependency list and its build targets
(`src/cargo/core/package.rs`). -/
structure Package where
  package_id : PackageId
  manifest_path : List String
  dependencies : List Dependency
  targets : List Target
deriving DecidableEq, Repr

/-- `Package::name`. -/
def Package.name (p : Package) : String := p.package_id.name

/-- `Package::version`. -/
def Package.version (p : Package) : Version := p.package_id.version

/-- `Package::root`: the parent directory of the manifest path. -/
def Package.root (p : Package) : List String := p.manifest_path.dropLast

/-- A rule of cargo's `CompileFilter` for bins/examples: either "all targets
of this kind" or an explicit list of names. -/
inductive FilterRule
  | all
  | just (names : List String)
deriving DecidableEq, Repr

/-- `FilterRule::try_collect`: the explicit names, if any. -/
def FilterRule.try_collect : FilterRule → Option (List String)
  | .all => none
  | .just names => some names

/-- cargo's `CompileFilter`, reduced to the cases `exe_names` distinguishes. -/
inductive CompileFilter
  | default
  | only (all_targets : Bool) (bins : FilterRule) (examples : FilterRule)
deriving DecidableEq, Repr

/-- Compile options, reduced to the fields this module reads: requested
features, the all-features / no-default-features flags, the requested
profile (from `build_config`), and the target filter. -/
structure CompileOptions where
  features : List String
  all_features : Bool
  no_default_features : Bool
  requested_profile : String
  filter : CompileFilter
deriving DecidableEq, Repr

/-- `std::env::consts::EXE_SUFFIX` on a Unix host. -/
def EXE_SUFFIX : String := ""

/-- The `to_exe` closure in `exe_names`. -/
def to_exe (name : String) : String := name ++ EXE_SUFFIX

/-- Helper to convert a features `Vec` to a `BTreeSet` (`feature_set`). -/
def feature_set (features : List String) : Finset String := features.toFinset

/-- `exe_names`: the executable names a package would produce under the
given compile filter. -/
def exe_names (pkg : Package) (filter : CompileFilter) : Finset String :=
  match filter with
  | .default =>
      ((pkg.targets.filter (·.is_bin)).map (fun t => to_exe t.name)).toFinset
  | .only true _ _ =>
      ((pkg.targets.filter (·.is_executable)).map (fun t => to_exe t.name)).toFinset
  | .only false bins examples =>
      let all_bins : List String := bins.try_collect.getD
        ((pkg.targets.filter (·.is_bin)).map (·.name))
      let all_examples : List String := examples.try_collect.getD
        ((pkg.targets.filter (·.is_exe_example)).map (·.name))
      ((all_bins ++ all_examples).map to_exe).toFinset

/-! ### Association-list maps keyed by `PackageId`

`BTreeMap<PackageId, V>` is modelled as `List (PackageId × V)`.  All key
comparisons go through `PackageId.eqKey`, the `precise`-ignoring equality
that cargo's `BTreeMap` uses. -/

/-- Look up the value stored under a key (first entry whose key compares
equal). -/
def lookupPkg {V : Type} (l : List (PackageId × V)) (k : PackageId) : Option V :=
  (l.find? (fun e => e.1.eqKey k)).map (·.2)

/-- `BTreeMap::contains_key`. -/
def containsKeyPkg {V : Type} (l : List (PackageId × V)) (k : PackageId) : Bool :=
  l.any (fun e => e.1.eqKey k)

/-- `BTreeMap::entry(k).and_modify(f).or_insert(d)`: modify the entry in
place if the key is present (keeping the stored key, as `BTreeMap` does),
otherwise append a new entry. -/
def updOrIns {V : Type} (l : List (PackageId × V)) (k : PackageId) (f : V → V) (d : V) :
    List (PackageId × V) :=
  if containsKeyPkg l k then
    l.map (fun e => if e.1.eqKey k then (e.1, f e.2) else e)
  else l ++ [(k, d)]

/-- The key-uniqueness invariant a `BTreeMap` maintains. -/
def nodupKeys {V : Type} (l : List (PackageId × V)) : Prop :=
  l.Pairwise (fun a b => a.1.eqKey b.1 = false)

/-! ### The v1 and v2 install records -/

/-- Tracking information for one installed package (v2 format's
`InstallInfo`).  `serde_json::Value`s in the forward-compatibility bag are
modelled as raw strings. -/
structure InstallInfo where
  version_req : Option String
  bins : Finset String
  features : Finset String
  all_features : Bool
  no_default_features : Bool
  profile : String
  target : Option String
  rustc : Option String
  other : List (String × String)
deriving DecidableEq

/-- The legacy (v1) record: package id → set of binary names. -/
structure CrateListingV1 where
  v1 : List (PackageId × Finset String)
deriving DecidableEq

/-- The current (v2) record: package id → `InstallInfo`, plus a
forward-compatibility bag. -/
structure CrateListingV2 where
  installs : List (PackageId × InstallInfo)
  other : List (String × String)
deriving DecidableEq

/-- `InstallInfo::from_v1`. -/
def InstallInfo.from_v1 (set : Finset String) : InstallInfo where
  version_req := none
  bins := set
  features := ∅
  all_features := false
  no_default_features := false
  profile := "release"
  target := none
  rustc := none
  other := []

/-- `InstallInfo::is_up_to_date`: does the recorded build configuration and
binary set match the current request?  (No package/source/version
checking.) -/
def InstallInfo.is_up_to_date (info : InstallInfo) (opts : CompileOptions) (target : String)
    (exes : Finset String) : Bool :=
  info.features == feature_set opts.features
    && info.all_features == opts.all_features
    && info.no_default_features == opts.no_default_features
    && info.profile == opts.requested_profile
    && (info.target.isNone || info.target == some target)
    && info.bins == exes

/-- `CrateListingV2::sync_v1`: make the `bins` entries match v1 (inserting
`InstallInfo::from_v1` entries for ids new to v2), then remove ids absent
from v1. -/
def CrateListingV2.sync_v1 (self : CrateListingV2) (v1 : CrateListingV1) : CrateListingV2 :=
  let installs := v1.v1.foldl
    (fun acc kb =>
      updOrIns acc kb.1 (fun info => { info with bins := kb.2 }) (InstallInfo.from_v1 kb.2))
    self.installs
  { self with installs := installs.filter (fun e => containsKeyPkg v1.v1 e.1) }

/-- `CrateListingV2::package_for_bin`: the first entry whose binary set
contains the name. -/
def CrateListingV2.package_for_bin (self : CrateListingV2) (bin_name : String) :
    Option PackageId :=
  (self.installs.find? (fun e => decide (bin_name ∈ e.2.bins))).map (·.1)

/-- `CrateListingV1::mark_installed`: strip `bins` from every package, prune
entries left empty, then merge `bins` into the candidate's entry. -/
def CrateListingV1.mark_installed (self : CrateListingV1) (pkg : Package)
    (bins : Finset String) : CrateListingV1 :=
  let stripped := self.v1.map (fun e => (e.1, e.2 \ bins))
  let pruned := stripped.filter (fun e => decide (e.2 ≠ ∅))
  ⟨updOrIns pruned pkg.package_id (fun s => s ∪ bins) bins⟩

/-- `CrateListingV1::remove`: `none` models the
`panic!("v1 unexpected missing")` for an untracked id. -/
def CrateListingV1.remove (self : CrateListingV1) (pkg_id : PackageId)
    (bins : Finset String) : Option CrateListingV1 :=
  match lookupPkg self.v1 pkg_id with
  | none => none
  | some installed =>
      let remaining := installed \ bins
      if remaining = ∅ then
        some ⟨self.v1.filter (fun e => !(e.1.eqKey pkg_id))⟩
      else
        some ⟨self.v1.map (fun e => (e.1, if e.1.eqKey pkg_id then remaining else e.2))⟩

/-- `CrateListingV2::mark_installed`: strip `bins` from every package, prune
entries left empty, then insert-or-update the candidate's entry with the
merged binary set and the current build-configuration snapshot (the
`get_mut`-then-modify / `insert` pair is entry-or-insert semantics). -/
def CrateListingV2.mark_installed (self : CrateListingV2) (pkg : Package)
    (bins : Finset String) (version_req : Option String) (opts : CompileOptions)
    (target : String) (rustc : String) : CrateListingV2 :=
  let stripped := self.installs.map (fun e => (e.1, { e.2 with bins := e.2.bins \ bins }))
  let pruned := stripped.filter (fun e => decide (e.2.bins ≠ ∅))
  { self with installs := (updOrIns pruned pkg.package_id
      (fun info =>
        { info with
          bins := info.bins ∪ bins
          version_req := version_req
          features := feature_set opts.features
          all_features := opts.all_features
          no_default_features := opts.no_default_features
          profile := opts.requested_profile
          target := some target
          rustc := some rustc })
      { version_req := version_req
        bins := bins
        features := feature_set opts.features
        all_features := opts.all_features
        no_default_features := opts.no_default_features
        profile := opts.requested_profile
        target := some target
        rustc := some rustc
        other := [] }) }

/-- `CrateListingV2::remove`: `none` models the
`panic!("v2 unexpected missing")` for an untracked id. -/
def CrateListingV2.remove (self : CrateListingV2) (pkg_id : PackageId)
    (bins : Finset String) : Option CrateListingV2 :=
  match lookupPkg self.installs pkg_id with
  | none => none
  | some info =>
      let remaining := info.bins \ bins
      if remaining = ∅ then
        some { self with installs := self.installs.filter (fun e => !(e.1.eqKey pkg_id)) }
      else
        some { self with installs := self.installs.map (fun e =>
          (e.1, if e.1.eqKey pkg_id then { e.2 with bins := remaining } else e.2)) }

/-! ### The install tracker -/

/-- The in-memory part of `InstallTracker` (the two records; the file locks
are process resources outside the embedding). -/
structure InstallTracker where
  v1 : CrateListingV1
  v2 : CrateListingV2
deriving DecidableEq

/-- The reconcile step `InstallTracker::load` performs after parsing: the v2
record is synchronized from v1 before the tracker is returned. -/
def InstallTracker.loadSync (v1 : CrateListingV1) (v2 : CrateListingV2) : InstallTracker :=
  { v1 := v1, v2 := v2.sync_v1 v1 }

/-- `InstallTracker::mark_installed` (updates both records). -/
def InstallTracker.mark_installed (t : InstallTracker) (pkg : Package)
    (bins : Finset String) (version_req : Option String) (opts : CompileOptions)
    (target : String) (rustc : String) : InstallTracker :=
  { v1 := t.v1.mark_installed pkg bins
    v2 := t.v2.mark_installed pkg bins version_req opts target rustc }

/-- `InstallTracker::remove` (v1 first, then v2; a panic in either aborts). -/
def InstallTracker.remove (t : InstallTracker) (pkg_id : PackageId)
    (bins : Finset String) : Option InstallTracker :=
  match t.v1.remove pkg_id bins with
  | none => none
  | some v1' =>
      match t.v2.remove pkg_id bins with
      | none => none
      | some v2' => some { v1 := v1', v2 := v2' }

/-- A mutation of the tracker (for stating sequence invariants). -/
inductive Op
  | mark (pkg : Package) (bins : Finset String) (version_req : Option String)
      (opts : CompileOptions) (target : String) (rustc : String)
  | remove (pkg_id : PackageId) (bins : Finset String)

/-- Apply one mutation. -/
def InstallTracker.applyOp (t : InstallTracker) : Op → Option InstallTracker
  | .mark pkg bins vr opts target rustc => some (t.mark_installed pkg bins vr opts target rustc)
  | .remove pkg_id bins => t.remove pkg_id bins

/-- Apply a sequence of mutations (aborting if any one aborts). -/
def InstallTracker.applyOps (t : InstallTracker) (ops : List Op) : Option InstallTracker :=
  ops.foldlM InstallTracker.applyOp t

/-! ### check_upgrade -/

/-- `Freshness` from `core::compiler`. -/
inductive Freshness
  | fresh
  | dirty
deriving DecidableEq, Repr

/-- Result of `check_upgrade`: a freshness decision with the duplicate map,
or the conflict error. -/
inductive CheckResult
  | ok (freshness : Freshness) (duplicates : List (String × Option PackageId))
  | conflict (msg : String)
deriving DecidableEq, Repr

/-- `InstallTracker::find_duplicates`: for every computed executable name
that exists as a file in the destination (in `BTreeSet` order), the owning
tracked package id, if any. -/
def InstallTracker.find_duplicates (t : InstallTracker) (dst : Finset String)
    (exes : Finset String) : List (String × Option PackageId) :=
  (exes.sort (· ≤ ·)).filterMap (fun name =>
    if name ∈ dst then some (name, t.v2.package_for_bin name) else none)

/-- Display form of a `Version`. -/
def Version.display (v : Version) : String :=
  toString v.major ++ "." ++ toString v.minor ++ "." ++ toString v.patch

/-- Display form of a `SourceId` (its url). -/
def SourceId.display (s : SourceId) : String := s.url

/-- `SourceId::is_default_registry`. -/
def SourceId.is_default_registry (s : SourceId) : Bool :=
  s.kind == SourceKind.registry && s.url == "https://github.com/rust-lang/crates.io-index"

/-- Display form of a `PackageId` (`Display for PackageId`). -/
def PackageId.display (p : PackageId) : String :=
  p.name ++ " v" ++ p.version.display ++
    (if p.source_id.is_default_registry then "" else " (" ++ p.source_id.display ++ ")")

/-- One line of the conflict error message. -/
def dupLine (bin : String) (p : Option PackageId) : String :=
  "binary `" ++ bin ++ "` already exists in destination" ++
    (match p with
     | some pid => " as part of `" ++ pid.display ++ "`\n"
     | none => "\n")

/-- The conflict error message `check_upgrade` builds. -/
def conflictMessage (duplicates : List (String × Option PackageId)) : String :=
  (duplicates.foldl (fun msg e => msg ++ dupLine e.1 e.2) "") ++ "Add --force to overwrite"

/-- The `is_up_to_date` closure inside `check_upgrade`; `none` models the
`.expect("dupes must be in sync")` panic. -/
def is_up_to_date_for (v2 : CrateListingV2) (pkg : Package) (opts : CompileOptions)
    (target : String) (exes : Finset String) (dupe_pkg_id : PackageId) : Option Bool :=
  match lookupPkg v2.installs dupe_pkg_id with
  | none => none
  | some info =>
      let source_id := pkg.package_id.source_id
      let precise_equal :=
        if source_id.is_git then dupe_pkg_id.source_id.precise == source_id.precise
        else true
      some (dupe_pkg_id.version == pkg.version
        && dupe_pkg_id.source_id.eqKey source_id
        && precise_equal
        && info.is_up_to_date opts target exes)

/-- `Iterator::all` with a possibly-panicking predicate (short-circuits, so
a panic after an early `false` does not occur). -/
def allUpToDate (f : PackageId → Option Bool) : List PackageId → Option Bool
  | [] => some true
  | x :: xs =>
      match f x with
      | none => none
      | some false => some false
      | some true => allUpToDate f xs

/-- `InstallTracker::check_upgrade`.  `none` models a panic. -/
def InstallTracker.check_upgrade (t : InstallTracker) (dst : Finset String) (pkg : Package)
    (force : Bool) (opts : CompileOptions) (target : String) : Option CheckResult :=
  let exes := exe_names pkg opts.filter
  let duplicates := t.find_duplicates dst exes
  if force || duplicates.isEmpty then some (.ok .dirty duplicates)
  else
    let matching_duplicates : List PackageId := duplicates.filterMap (fun e =>
      match e.2 with
      | some dupe_pkg_id => if dupe_pkg_id.name == pkg.name then some dupe_pkg_id else none
      | none => none)
    if matching_duplicates.length = duplicates.length then
      if pkg.package_id.source_id.is_path then some (.ok .dirty duplicates)
      else
        match allUpToDate (is_up_to_date_for t.v2 pkg opts target exes) matching_duplicates with
        | none => none
        | some true => some (.ok .fresh duplicates)
        | some false => some (.ok .dirty duplicates)
    else
      some (.conflict (conflictMessage duplicates))

/-! ### Package equality and hashing (`src/cargo/core/package.rs`) -/

/-- `impl PartialEq for Package`: equality is by `package_id` alone. -/
def Package.eq (a b : Package) : Bool := a.package_id.eqKey b.package_id

/-- The data fed to the hasher by `impl Hash for Package`.  Two values hash
equal exactly when they feed the hasher the same data. -/
inductive HashKey
  | pathKey (root : List String) (name : String) (version : Version)
  | idKey (name : String) (version : Version) (kind : SourceKind) (url : String)
deriving DecidableEq, Repr

/-- `impl Hash for Package`: a path-origin package hashes its root path,
name and version (tag 0); any other package hashes its package id (tag 1;
`PackageId`'s hash ignores `precise`, like its equality). -/
def Package.hashKey (p : Package) : HashKey :=
  if p.package_id.source_id.is_path then
    .pathKey p.root p.name p.package_id.version
  else
    .idKey p.package_id.name p.package_id.version p.package_id.source_id.kind
      p.package_id.source_id.url

/-! ### PackageSet and its topological sort -/

/-- An in-memory collection of resolved packages. -/
structure PackageSet where
  packages : List Package
deriving DecidableEq, Repr

/-- `PackageSet::get`: first package with the given name; `none` models the
`.expect("PackageSet.get: empty set")` panic. -/
def PackageSet.get (s : PackageSet) (name : String) : Option Package :=
  s.packages.find? (fun p => p.name == name)

/-- Dependency names of the (assumed unique) package with the given name:
the edges `PackageSet::sort` adds for that graph node. -/
def PackageSet.depNames (s : PackageSet) (name : String) : List String :=
  match s.packages.find? (fun p => p.name == name) with
  | some p => p.dependencies.map (·.package_name)
  | none => []

/-- Modelled from the spec: `cargo::util::graph::Graph::sort` (the graph
module is not part of this repository slice).  Per the spec, `sort` "returns
an ordering in which every package appears after all packages it depends
on, or signals that no such ordering exists when the graph contains a
cycle".  Repeatedly emit a pending node all of whose dependencies are
already emitted; if none can be emitted while nodes remain, there is a
cycle and the result is `none`.  The fuel argument is the number of pending
nodes, which decreases by one per emission. -/
def topoSortAux (deps : String → List String) :
    Nat → List String → List String → Option (List String)
  | 0, emitted, pending => if pending.isEmpty then some emitted else none
  | n + 1, emitted, pending =>
      match pending.find? (fun x => (deps x).all (fun d => emitted.contains d)) with
      | none => if pending.isEmpty then some emitted else none
      | some x => topoSortAux deps n (emitted ++ [x]) (pending.erase x)

/-- Modelled from the spec: the dependency-respecting ordering of the given
nodes, or `none` when the graph contains a cycle. -/
def topoSort (nodes : List String) (deps : String → List String) : Option (List String) :=
  topoSortAux deps nodes.length [] nodes

/-- `PackageSet::sort`: build the name graph, topologically sort it, and map
the sorted names back to packages.  `none` from the final lookup models the
(unreachable for closed graphs) `get` panic. -/
def PackageSet.sort (s : PackageSet) : Option PackageSet :=
  let names := s.packages.map Package.name
  match topoSort names s.depNames with
  | none => none
  | some order => (order.mapM s.get).map PackageSet.mk

/-- A dependency cycle among the given nodes: a nonempty node list in which
each element depends on the next, and the last depends on the first. -/
def IsCycle (nodes : List String) (deps : String → List String) (c : List String) : Prop :=
  (∀ y ∈ c, y ∈ nodes) ∧
    ∃ x l, c = x :: l ∧ List.Chain (fun a b => b ∈ deps a) x (l ++ [x])

/-- In a stuck state of the sort (no pending node has all dependencies
emitted), pick a not-yet-emitted dependency of a node; used to extract a
cycle. -/
def walkF (deps : String → List String) (emitted : List String) (x : String) : String :=
  ((deps x).find? (fun d => !(emitted.contains d))).getD x

/-- Iterate `walkF`, producing a walk along unmet dependencies. -/
def walk (deps : String → List String) (emitted : List String) (x0 : String) : Nat → String
  | 0 => x0
  | n + 1 => walkF deps emitted (walk deps emitted x0 n)

/-! ### Selection helpers -/

/-- A query result summary, reduced to the field `select_dep_pkg` reads. -/
structure Summary where
  package_id : PackageId
deriving DecidableEq, Repr

/-- The `Source` collaborator capability, as pure functions.  The cache lock
and `update()` are process effects outside the embedding. -/
structure Source where
  source_id : SourceId
  query_vec : Dependency → List Summary
  download_now : PackageId → Except String Package
  is_yanked : PackageId → Option Bool

/-- `Iterator::max`: the maximum element, the later one winning ties. -/
def iterMax (l : List PackageId) : Option PackageId :=
  l.foldl
    (fun acc x =>
      match acc with
      | none => some x
      | some m => if PackageId.le m x then some x else some m)
    none

/-- Split a character list on `.` separators. -/
def splitOnDot : List Char → List (List Char)
  | [] => [[]]
  | c :: cs =>
      if c = '.' then [] :: splitOnDot cs
      else
        match splitOnDot cs with
        | [] => [[c]]
        | p :: ps => (c :: p) :: ps

/-- Parse a nonempty decimal digit string. -/
def parseNat? (cs : List Char) : Option Nat :=
  if cs = [] then none
  else cs.foldlM (fun acc c => if c.isDigit then some (acc * 10 + (c.toNat - 48)) else none) 0

/-- Version parsing (the external `semver` crate), for plain `x.y.z`
strings. -/
def parseVersion (s : String) : Option Version :=
  match splitOnDot s.data with
  | [a, b, c] =>
      match parseNat? a, parseNat? b, parseNat? c with
      | some x, some y, some z => some (⟨x, y, z⟩ : Version)
      | _, _, _ => none
  | _ => none

/-- `PackageId::new`: parse the version string (failure modelled as
`none`). -/
def PackageId.new (name : String) (version : String) (source_id : SourceId) :
    Option PackageId :=
  (parseVersion version).map (fun v => ⟨name, v, source_id⟩)

/-- The yank error message of `select_dep_pkg`. -/
def yankedMsg (dep : Dependency) (sid : SourceId) : String :=
  "cannot install package `" ++ dep.package_name ++ "`, it has been yanked from "
    ++ sid.display

/-- The not-found error message of `select_dep_pkg`. -/
def notFoundMsg (dep : Dependency) (sid : SourceId) : String :=
  "could not find `" ++ dep.package_name ++ "` in " ++ sid.display
    ++ " with version `" ++ dep.version_req.display ++ "`"

/-- The best-guess identity `select_dep_pkg` probes for yank status when no
candidate matched (for an exact requirement, the leading `=` is stripped
from the display string before parsing). -/
def bestGuessId (dep : Dependency) (sid : SourceId) : Option PackageId :=
  let version := dep.version_req.display
  if dep.version_req.is_exact then
    PackageId.new dep.package_name (version.drop 1) sid
  else
    PackageId.new dep.package_name version sid

/-- The yank probe: `pkg_id.map_or(false, |id| source.is_yanked(id).unwrap_or(false))`. -/
def probeYanked (source : Source) (dep : Dependency) : Bool :=
  match bestGuessId dep source.source_id with
  | some pid => (source.is_yanked pid).getD false
  | none => false

/-- `select_dep_pkg` (the cache lock and the optional `source.update()` are
process effects outside the embedding). -/
def select_dep_pkg (source : Source) (dep : Dependency) : Except String Package :=
  match iterMax ((source.query_vec dep).map (·.package_id)) with
  | some pkgid => source.download_now pkgid
  | none =>
      if probeYanked source dep then .error (yankedMsg dep source.source_id)
      else .error (notFoundMsg dep source.source_id)

/-! ### Predicates used to state the claims -/

/-- The two records agree: looking up any identity yields the same binary
set in both (in particular the same tracked identities). -/
def recordsAgree (v1 : CrateListingV1) (v2 : CrateListingV2) : Prop :=
  ∀ id, lookupPkg v1.v1 id = (lookupPkg v2.installs id).map (·.bins)

/-- No binary name is owned by two entries of the legacy record. -/
def uniqueBinOwners1 (l : List (PackageId × Finset String)) : Prop :=
  l.Pairwise (fun a b => a.2 ∩ b.2 = ∅)

/-- No binary name is owned by two entries of the current record. -/
def uniqueBinOwners2 (l : List (PackageId × InstallInfo)) : Prop :=
  l.Pairwise (fun a b => a.2.bins ∩ b.2.bins = ∅)

/-- The per-entry rewrite the first loop of `sync_v1` performs, relative to a
legacy entry list `w`: entries whose key `w` tracks get their `bins`
overwritten from `w`. -/
def modifBins (w : List (PackageId × Finset String)) (e : PackageId × InstallInfo) :
    InstallInfo :=
  match lookupPkg w e.1 with
  | some b => { e.2 with bins := b }
  | none => e.2

/-- The entry-level form of `modifBins`. -/
def modifAt (w : List (PackageId × Finset String)) (e : PackageId × InstallInfo) :
    PackageId × InstallInfo :=
  (e.1, modifBins w e)

/-! ### Concrete fixtures used by the claim witnesses -/

/-- A registry source id used in witnesses. -/
def regSrc : SourceId := ⟨SourceKind.registry, "reg", none⟩

/-- Identity of the previously installed package `p v1.0.0`. -/
def pidP : PackageId := ⟨"p", ⟨1, 0, 0⟩, regSrc⟩

/-- The package `p v1.0.0` producing binary `foo`. -/
def pkgP : Package := ⟨pidP, [], [], [⟨"foo", .bin⟩]⟩

/-- Identity of the unrelated package `q v1.0.0`. -/
def pidQ : PackageId := ⟨"q", ⟨1, 0, 0⟩, regSrc⟩

/-- The unrelated package `q v1.0.0`, also producing binary `foo`. -/
def pkgQ : Package := ⟨pidQ, [], [], [⟨"foo", .bin⟩]⟩

/-- The recorded install info for `p`: binary `foo`, feature set `{x}`. -/
def infoP : InstallInfo :=
  ⟨none, {"foo"}, {"x"}, false, false, "release", some "host", some "rustc", []⟩

/-- Compile options requesting feature set `{x}`. -/
def optsX : CompileOptions := ⟨["x"], false, false, "release", .default⟩

/-- A tracker in which `p v1.0.0` owns binary `foo` in both records. -/
def trkP : InstallTracker := ⟨⟨[(pidP, {"foo"})]⟩, ⟨[(pidP, infoP)], []⟩⟩

/-! ## Lemmas about the key equality and association-list maps -/

theorem SourceId.eqKey_refl (a : SourceId) : a.eqKey a = true := by
  simp [SourceId.eqKey]

theorem SourceId.eqKey_symm {a b : SourceId} (h : a.eqKey b = true) : b.eqKey a = true := by
  simp only [SourceId.eqKey, Bool.and_eq_true, beq_iff_eq] at h ⊢
  exact ⟨h.1.symm, h.2.symm⟩

theorem SourceId.eqKey_trans {a b c : SourceId} (h1 : a.eqKey b = true)
    (h2 : b.eqKey c = true) : a.eqKey c = true := by
  simp only [SourceId.eqKey, Bool.and_eq_true, beq_iff_eq] at h1 h2 ⊢
  exact ⟨h1.1.trans h2.1, h1.2.trans h2.2⟩

theorem PackageId.pid_eqKey_refl (a : PackageId) : a.eqKey a = true := by
  simp [PackageId.eqKey, SourceId.eqKey_refl]

theorem PackageId.pid_eqKey_symm {a b : PackageId} (h : a.eqKey b = true) : b.eqKey a = true := by
  simp only [PackageId.eqKey, Bool.and_eq_true, beq_iff_eq] at h ⊢
  exact ⟨⟨h.1.1.symm, h.1.2.symm⟩, SourceId.eqKey_symm h.2⟩

theorem PackageId.pid_eqKey_trans {a b c : PackageId} (h1 : a.eqKey b = true)
    (h2 : b.eqKey c = true) : a.eqKey c = true := by
  simp only [PackageId.eqKey, Bool.and_eq_true, beq_iff_eq] at h1 h2 ⊢
  exact ⟨⟨h1.1.1.trans h2.1.1, h1.1.2.trans h2.1.2⟩, SourceId.eqKey_trans h1.2 h2.2⟩

section MapLemmas

variable {V W : Type}

theorem lookupPkg_nil (k : PackageId) : lookupPkg ([] : List (PackageId × V)) k = none := rfl

theorem lookupPkg_cons (e : PackageId × V) (l : List (PackageId × V)) (k : PackageId) :
    lookupPkg (e :: l) k = if e.1.eqKey k then some e.2 else lookupPkg l k := by
  simp only [lookupPkg, List.find?]
  cases h : e.1.eqKey k <;> simp [h]

theorem containsKeyPkg_iff_isSome (l : List (PackageId × V)) (k : PackageId) :
    containsKeyPkg l k = (lookupPkg l k).isSome := by
  induction l with
  | nil => rfl
  | cons e l ih =>
      simp only [containsKeyPkg, List.any_cons, lookupPkg_cons]
      cases h : e.1.eqKey k
      · simpa [h, containsKeyPkg] using ih
      · simp [h]

theorem lookupPkg_congr {a b : PackageId} (l : List (PackageId × V))
    (hab : a.eqKey b = true) : lookupPkg l a = lookupPkg l b := by
  induction l with
  | nil => rfl
  | cons e l ih =>
      rw [lookupPkg_cons, lookupPkg_cons, ih]
      cases h : e.1.eqKey a
      · cases h' : e.1.eqKey b
        · simp [h, h']
        · exact absurd (PackageId.pid_eqKey_trans h' (PackageId.pid_eqKey_symm hab)) (by simp [h])
      · rw [PackageId.pid_eqKey_trans h hab]

theorem lookupPkg_append (l1 l2 : List (PackageId × V)) (k : PackageId) :
    lookupPkg (l1 ++ l2) k =
      match lookupPkg l1 k with
      | some v => some v
      | none => lookupPkg l2 k := by
  induction l1 with
  | nil => simp [lookupPkg_nil]
  | cons e l ih =>
      rw [List.cons_append, lookupPkg_cons, lookupPkg_cons]
      cases h : e.1.eqKey k <;> simp [ih]

/-- Lookup through a key-preserving map. -/
theorem lookupPkg_mapEntry (l : List (PackageId × V)) (f : PackageId × V → W) (k : PackageId) :
    lookupPkg (l.map (fun e => (e.1, f e))) k = (l.find? (fun e => e.1.eqKey k)).map f := by
  induction l with
  | nil => rfl
  | cons e l ih =>
      simp only [List.map_cons, lookupPkg_cons, List.find?]
      cases h : e.1.eqKey k <;> simp [h, ih]

theorem lookupPkg_eq_find (l : List (PackageId × V)) (k : PackageId) :
    lookupPkg l k = (l.find? (fun e => e.1.eqKey k)).map (·.2) := rfl

/-- If every entry matching the key satisfies the filter, filtering does not
change the lookup. -/
theorem lookupPkg_filter_of_true (l : List (PackageId × V)) (p : PackageId × V → Bool)
    (k : PackageId) (hp : ∀ e ∈ l, e.1.eqKey k = true → p e = true) :
    lookupPkg (l.filter p) k = lookupPkg l k := by
  induction l with
  | nil => rfl
  | cons e l ih =>
      rw [List.filter_cons]
      cases h : e.1.eqKey k
      · cases hpe : p e
        · rw [if_neg (by simp [hpe]), lookupPkg_cons, h, if_neg (by simp)]
          exact ih fun e' he' => hp e' (List.mem_cons_of_mem _ he')
        · rw [if_pos (by simp), lookupPkg_cons, lookupPkg_cons, h]
          simp only [if_neg (by simp : ¬(false = true))]
          exact ih fun e' he' => hp e' (List.mem_cons_of_mem _ he')
      · rw [hp e (List.mem_cons_self _ _) h, if_pos rfl, lookupPkg_cons, lookupPkg_cons, h]
        simp

/-- If no entry matching the key satisfies the filter, the filtered lookup is
`none`. -/
theorem lookupPkg_filter_of_false (l : List (PackageId × V)) (p : PackageId × V → Bool)
    (k : PackageId) (hp : ∀ e ∈ l, e.1.eqKey k = true → p e = false) :
    lookupPkg (l.filter p) k = none := by
  induction l with
  | nil => rfl
  | cons e l ih =>
      rw [List.filter_cons]
      cases hpe : p e
      · rw [if_neg (by simp)]
        exact ih fun e' he' => hp e' (List.mem_cons_of_mem _ he')
      · rw [if_pos rfl, lookupPkg_cons]
        cases h : e.1.eqKey k
        · simp only [if_neg (by simp : ¬(false = true))]
          exact ih fun e' he' => hp e' (List.mem_cons_of_mem _ he')
        · exact absurd (hp e (List.mem_cons_self _ _) h) (by simp [hpe])

/-- The unique entry for a key, under `nodupKeys`. -/
theorem entry_unique_nodup {l : List (PackageId × V)} {e e' : PackageId × V}
    (hnd : nodupKeys l) (he : e ∈ l) (he' : e' ∈ l) (hk : e.1.eqKey e'.1 = true) : e = e' := by
  by_contra hne
  have hsymm : Symmetric (fun a b : PackageId × V => a.1.eqKey b.1 = false) := by
    intro a b hab
    cases h : b.1.eqKey a.1
    · rfl
    · rw [PackageId.pid_eqKey_symm h] at hab
      cases hab
  have := List.Pairwise.forall hsymm hnd he he' hne
  rw [hk] at this
  cases this

/-- Characterization of `updOrIns` lookups. -/
theorem lookupPkg_updOrIns (l : List (PackageId × V)) (k : PackageId) (f : V → V) (d : V)
    (id : PackageId) :
    lookupPkg (updOrIns l k f d) id =
      if id.eqKey k then
        match lookupPkg l k with
        | some v => some (f v)
        | none => some d
      else lookupPkg l id := by
  unfold updOrIns
  cases hc : containsKeyPkg l k
  · rw [if_neg (by simp), lookupPkg_append]
    rw [containsKeyPkg_iff_isSome] at hc
    have hlk : lookupPkg l k = none := by
      cases h : lookupPkg l k
      · rfl
      · rw [h] at hc
        cases hc
    cases hid : id.eqKey k
    · simp only [if_neg (by simp : ¬(false = true))]
      cases hli : lookupPkg l id
      · simp only [lookupPkg_cons, lookupPkg_nil]
        rw [if_neg]
        intro hke
        exact absurd (PackageId.pid_eqKey_symm hke) (by simp [hid])
      · simp
    · rw [if_pos rfl, hlk]
      have : lookupPkg l id = none := by rw [lookupPkg_congr l hid, hlk]
      rw [this]
      simp only [lookupPkg_cons, lookupPkg_nil]
      rw [if_pos (PackageId.pid_eqKey_symm hid)]
  · rw [if_pos rfl]
    have hmap : (l.map (fun e => if e.1.eqKey k then (e.1, f e.2) else e))
        = l.map (fun e => (e.1, if e.1.eqKey k then f e.2 else e.2)) := by
      apply List.map_congr_left
      intro e _
      cases h : e.1.eqKey k <;> simp [h]
    rw [hmap, lookupPkg_mapEntry]
    cases hid : id.eqKey k
    · simp only [if_neg (by simp : ¬(false = true))]
      rw [lookupPkg_eq_find]
      cases hf : l.find? (fun e => e.1.eqKey id)
      · simp
      · rename_i e
        have he : e.1.eqKey id = true := by simpa using List.find?_some hf
        have : e.1.eqKey k = false := by
          cases h : e.1.eqKey k
          · rfl
          · exact absurd (PackageId.pid_eqKey_trans (PackageId.pid_eqKey_symm he) h) (by simp [hid])
        simp [this]
    · rw [if_pos rfl]
      have hck : lookupPkg l id = lookupPkg l k := lookupPkg_congr l hid
      rw [containsKeyPkg_iff_isSome] at hc
      cases hf : l.find? (fun e => e.1.eqKey id)
      · exfalso
        rw [← hck, lookupPkg_eq_find, hf] at hc
        cases hc
      · rename_i e
        have : lookupPkg l k = some e.2 := by
          rw [← hck, lookupPkg_eq_find, hf]
          rfl
        rw [this]
        simp [PackageId.pid_eqKey_trans (show e.1.eqKey id = true by simpa using List.find?_some hf) hid]

/-- Keys of a key-preserving map. -/
theorem nodupKeys_mapEntry (l : List (PackageId × V)) (f : PackageId × V → W)
    (h : nodupKeys l) : nodupKeys (l.map (fun e => (e.1, f e))) := by
  unfold nodupKeys at h ⊢
  rw [List.pairwise_map]
  exact h.imp (fun hab => hab)

theorem nodupKeys_filter (l : List (PackageId × V)) (p : PackageId × V → Bool)
    (h : nodupKeys l) : nodupKeys (l.filter p) :=
  h.sublist (List.filter_sublist l)

theorem nodupKeys_updOrIns (l : List (PackageId × V)) (k : PackageId) (f : V → V) (d : V)
    (h : nodupKeys l) : nodupKeys (updOrIns l k f d) := by
  unfold updOrIns
  cases hc : containsKeyPkg l k
  · rw [if_neg (by simp)]
    unfold nodupKeys at h ⊢
    rw [List.pairwise_append]
    refine ⟨h, List.pairwise_singleton _ _, ?_⟩
    intro e he e' he'
    rw [List.mem_singleton] at he'
    subst he'
    cases heq : e.1.eqKey k
    · rfl
    · exfalso
      have hck : containsKeyPkg l k = true := by
        unfold containsKeyPkg
        rw [List.any_eq_true]
        exact ⟨e, he, heq⟩
      rw [hc] at hck
      cases hck
  · rw [if_pos rfl]
    unfold nodupKeys at h ⊢
    rw [List.pairwise_map]
    refine h.imp_of_mem ?_
    intro a b _ _ hab
    cases ha : a.1.eqKey k <;> cases hb : b.1.eqKey k <;> simp [ha, hb, hab]

/-- With unique keys, an entry in the list is what lookup finds. -/
theorem lookupPkg_eq_of_mem_nodup {l : List (PackageId × V)} {e : PackageId × V}
    (hnd : nodupKeys l) (he : e ∈ l) {k : PackageId} (hk : e.1.eqKey k = true) :
    lookupPkg l k = some e.2 := by
  induction l with
  | nil => cases he
  | cons e' l ih =>
      rw [lookupPkg_cons]
      rcases List.mem_cons.mp he with rfl | he'
      · rw [hk]
        simp
      · have hne : e'.1.eqKey e.1 = false := (List.pairwise_cons.mp hnd).1 e he'
        have : e'.1.eqKey k = false := by
          cases h : e'.1.eqKey k
          · rfl
          · exact absurd (PackageId.pid_eqKey_trans h (PackageId.pid_eqKey_symm hk)) (by simp [hne])
        rw [this]
        simp only [if_neg (by simp : ¬(false = true))]
        exact ih (List.pairwise_cons.mp hnd).2 he'

/-- With unique keys, lookup through a filter keeps the entry exactly when
the filter does. -/
theorem lookupPkg_filter_nodup (l : List (PackageId × V)) (p : PackageId × V → Bool)
    (k : PackageId) (hnd : nodupKeys l) :
    lookupPkg (l.filter p) k =
      match l.find? (fun e => e.1.eqKey k) with
      | some e => if p e then some e.2 else none
      | none => none := by
  cases hf : l.find? (fun e => e.1.eqKey k)
  · rw [lookupPkg_filter_of_false]
    intro e he hk
    have := List.find?_eq_none.mp hf e he
    simp [hk] at this
  · rename_i e
    have he : e ∈ l := List.mem_of_find?_eq_some hf
    have hk : e.1.eqKey k = true := by simpa using List.find?_some hf
    cases hpe : p e
    · rw [lookupPkg_filter_of_false]
      · simp [hpe]
      · intro e' he' hk'
        have : e = e' :=
          entry_unique_nodup hnd he he' (PackageId.pid_eqKey_trans hk (PackageId.pid_eqKey_symm hk'))
        subst this
        exact hpe
    · rw [lookupPkg_filter_of_true]
      · show lookupPkg l k = if p e = true then some e.2 else none
        rw [hpe, if_pos rfl]
        exact lookupPkg_eq_of_mem_nodup hnd he hk
      · intro e' he' hk'
        have : e = e' :=
          entry_unique_nodup hnd he he' (PackageId.pid_eqKey_trans hk (PackageId.pid_eqKey_symm hk'))
        subst this
        exact hpe

end MapLemmas

/-! ## Lemmas about iterMax -/

theorem PackageId.le_rfl (a : PackageId) : a.le a := le_refl a.key

theorem PackageId.le_trans1 {a b c : PackageId} (h1 : a.le b) (h2 : b.le c) : a.le c :=
  le_trans h1 h2

theorem PackageId.le_total1 (a b : PackageId) : a.le b ∨ b.le a := le_total a.key b.key

theorem iterMax_go (xs : List PackageId) (m0 : PackageId) :
    ∃ m, xs.foldl
        (fun acc x =>
          match acc with
          | none => some x
          | some m => if PackageId.le m x then some x else some m)
        (some m0) = some m
      ∧ (m = m0 ∨ m ∈ xs) ∧ m0.le m ∧ ∀ x ∈ xs, x.le m := by
  induction xs generalizing m0 with
  | nil => exact ⟨m0, rfl, Or.inl rfl, PackageId.le_rfl m0, by simp⟩
  | cons x xs ih =>
      simp only [List.foldl_cons]
      by_cases h : PackageId.le m0 x
      · rw [if_pos h]
        obtain ⟨m, hm, hmem, hle, hall⟩ := ih x
        refine ⟨m, hm, ?_, PackageId.le_trans1 h hle, ?_⟩
        · rcases hmem with rfl | hmem
          · exact Or.inr (List.mem_cons_self _ _)
          · exact Or.inr (List.mem_cons_of_mem _ hmem)
        · intro y hy
          rcases List.mem_cons.mp hy with rfl | hy
          · exact hle
          · exact hall y hy
      · rw [if_neg h]
        obtain ⟨m, hm, hmem, hle, hall⟩ := ih m0
        have hx : x.le m0 := (PackageId.le_total1 m0 x).resolve_left h
        refine ⟨m, hm, ?_, hle, ?_⟩
        · rcases hmem with rfl | hmem
          · exact Or.inl rfl
          · exact Or.inr (List.mem_cons_of_mem _ hmem)
        · intro y hy
          rcases List.mem_cons.mp hy with rfl | hy
          · exact PackageId.le_trans1 hx hle
          · exact hall y hy

theorem iterMax_spec (l : List PackageId) (h : l ≠ []) :
    ∃ m, iterMax l = some m ∧ m ∈ l ∧ ∀ x ∈ l, x.le m := by
  cases l with
  | nil => exact absurd rfl h
  | cons x xs =>
      obtain ⟨m, hm, hmem, hle, hall⟩ := iterMax_go xs x
      refine ⟨m, ?_, ?_, ?_⟩
      · unfold iterMax
        simpa using hm
      · rcases hmem with rfl | hmem
        · exact List.mem_cons_self _ _
        · exact List.mem_cons_of_mem _ hmem
      · intro y hy
        rcases List.mem_cons.mp hy with rfl | hy
        · exact hle
        · exact hall y hy

/-! ## Lemmas about check_upgrade -/

/-- `check_upgrade` with its `let` bindings expanded. -/
theorem check_upgrade_eq (t : InstallTracker) (dst : Finset String) (pkg : Package)
    (force : Bool) (opts : CompileOptions) (target : String) :
    t.check_upgrade dst pkg force opts target =
      if force || (t.find_duplicates dst (exe_names pkg opts.filter)).isEmpty then
        some (.ok .dirty (t.find_duplicates dst (exe_names pkg opts.filter)))
      else
        if ((t.find_duplicates dst (exe_names pkg opts.filter)).filterMap (fun e =>
            match e.2 with
            | some dupe_pkg_id =>
                if dupe_pkg_id.name == pkg.name then some dupe_pkg_id else none
            | none => none)).length
            = (t.find_duplicates dst (exe_names pkg opts.filter)).length then
          if pkg.package_id.source_id.is_path then
            some (.ok .dirty (t.find_duplicates dst (exe_names pkg opts.filter)))
          else
            match allUpToDate (is_up_to_date_for t.v2 pkg opts target (exe_names pkg opts.filter))
                ((t.find_duplicates dst (exe_names pkg opts.filter)).filterMap (fun e =>
                  match e.2 with
                  | some dupe_pkg_id =>
                      if dupe_pkg_id.name == pkg.name then some dupe_pkg_id else none
                  | none => none)) with
            | none => none
            | some true => some (.ok .fresh (t.find_duplicates dst (exe_names pkg opts.filter)))
            | some false => some (.ok .dirty (t.find_duplicates dst (exe_names pkg opts.filter)))
        else
          some (.conflict (conflictMessage (t.find_duplicates dst (exe_names pkg opts.filter)))) :=
  rfl

theorem filterMap_length_lt {α β : Type} (g : α → Option β) (l : List α)
    (h : ∃ a ∈ l, g a = none) : (l.filterMap g).length < l.length := by
  induction l with
  | nil => simp at h
  | cons x xs ih =>
      rw [List.filterMap_cons]
      rcases h with ⟨a, ha, hga⟩
      rcases List.mem_cons.mp ha with rfl | ha'
      · rw [hga]
        exact Nat.lt_succ_of_le (List.length_filterMap_le g xs)
      · cases hx : g x
        · exact Nat.lt_succ_of_lt (ih ⟨a, ha', hga⟩)
        · simpa using Nat.succ_lt_succ (ih ⟨a, ha', hga⟩)

theorem filterMap_length_eq_of_all_some {α β : Type} (g : α → Option β) (l : List α)
    (h : ∀ a ∈ l, (g a).isSome) : (l.filterMap g).length = l.length := by
  induction l with
  | nil => rfl
  | cons x xs ih =>
      rw [List.filterMap_cons]
      cases hx : g x
      · have := h x (List.mem_cons_self _ _)
        rw [hx] at this
        simp at this
      · simpa using ih fun a ha => h a (List.mem_cons_of_mem _ ha)

/-- The conflict message is the concatenation of one line per duplicate and
the force instruction. -/
theorem conflictMessage_data (dups : List (String × Option PackageId)) :
    (conflictMessage dups).data =
      (dups.map (fun e => (dupLine e.1 e.2).data)).flatten ++ "Add --force to overwrite".data := by
  have key : ∀ (l : List (String × Option PackageId)) (init : String),
      (l.foldl (fun msg e => msg ++ dupLine e.1 e.2) init).data =
        init.data ++ (l.map (fun e => (dupLine e.1 e.2).data)).flatten := by
    intro l
    induction l with
    | nil => simp
    | cons x xs ih =>
        intro init
        rw [List.foldl_cons, ih, String.data_append]
        simp
  unfold conflictMessage
  rw [String.data_append, key]
  simp

/-- Each line of the conflict message names the binary and, when known, the
owning package. -/
theorem dupLine_parts (bin : String) (popt : Option PackageId) :
    ("binary `" ++ bin ++ "` already exists in destination").data <+: (dupLine bin popt).data ∧
    ∀ d, popt = some d →
      (" as part of `" ++ d.display ++ "`").data <:+: (dupLine bin popt).data := by
  constructor
  · unfold dupLine
    rw [String.data_append]
    exact List.prefix_append _ _
  · intro d hd
    subst hd
    have hs : dupLine bin (some d)
        = ("binary `" ++ bin ++ "` already exists in destination")
          ++ ((" as part of `" ++ d.display ++ "`") ++ "\n") := by
      unfold dupLine
      congr 1
      rw [String.append_assoc]
      rfl
    rw [hs, String.data_append, String.data_append]
    exact ⟨("binary `" ++ bin ++ "` already exists in destination").data, "\n".data, by simp⟩

/-- Evaluation of `check_upgrade` in the conflict branch: some duplicate is
either untracked or owned by a differently-named package. -/
theorem check_upgrade_conflict (t : InstallTracker) (dst : Finset String) (pkg : Package)
    (opts : CompileOptions) (target : String)
    (h : ∃ e ∈ t.find_duplicates dst (exe_names pkg opts.filter),
        e.2 = none ∨ ∃ d, e.2 = some d ∧ d.name ≠ pkg.name) :
    t.check_upgrade dst pkg false opts target
      = some (.conflict (conflictMessage (t.find_duplicates dst (exe_names pkg opts.filter)))) := by
  rw [check_upgrade_eq]
  obtain ⟨e, he, hcase⟩ := h
  have hne : (t.find_duplicates dst (exe_names pkg opts.filter)).isEmpty = false := by
    cases hl : t.find_duplicates dst (exe_names pkg opts.filter)
    · rw [hl] at he
      cases he
    · rfl
  rw [hne]
  simp only [Bool.false_or, if_neg (by simp : ¬(false = true))]
  have hlt : ((t.find_duplicates dst (exe_names pkg opts.filter)).filterMap (fun e =>
      match e.2 with
      | some dupe_pkg_id => if dupe_pkg_id.name == pkg.name then some dupe_pkg_id else none
      | none => none)).length < (t.find_duplicates dst (exe_names pkg opts.filter)).length := by
    apply filterMap_length_lt
    refine ⟨e, he, ?_⟩
    rcases hcase with hnone | ⟨d, hd, hdn⟩
    · rw [hnone]
    · rw [hd]
      simp [hdn]
  rw [if_neg (Nat.ne_of_lt hlt)]

/-! ## Lemmas about remove -/

theorem removeV1_none (r : CrateListingV1) (pkg_id : PackageId) (bins : Finset String)
    (h : lookupPkg r.v1 pkg_id = none) : r.remove pkg_id bins = none := by
  unfold CrateListingV1.remove
  rw [h]

theorem removeV1_lookup (r : CrateListingV1) (pkg_id : PackageId) (bins s : Finset String)
    (hs : lookupPkg r.v1 pkg_id = some s) :
    ∃ r', r.remove pkg_id bins = some r' ∧
      ∀ id, lookupPkg r'.v1 id =
        if id.eqKey pkg_id then (if s \ bins = ∅ then none else some (s \ bins))
        else lookupPkg r.v1 id := by
  by_cases hemp : s \ bins = ∅
  · refine ⟨⟨r.v1.filter (fun e => !(e.1.eqKey pkg_id))⟩,
      by unfold CrateListingV1.remove; rw [hs]; exact if_pos hemp, ?_⟩
    intro id
    cases hid : id.eqKey pkg_id
    · simp only [if_neg (by simp : ¬(false = true))]
      apply lookupPkg_filter_of_true
      intro e _ hek
      cases hke : e.1.eqKey pkg_id
      · simp
      · exact absurd (PackageId.pid_eqKey_trans (PackageId.pid_eqKey_symm hek) hke) (by simp [hid])
    · rw [if_pos rfl, if_pos hemp]
      apply lookupPkg_filter_of_false
      intro e _ hek
      simp [PackageId.pid_eqKey_trans hek hid]
  · refine ⟨⟨r.v1.map (fun e => (e.1, if e.1.eqKey pkg_id then s \ bins else e.2))⟩,
      by unfold CrateListingV1.remove; rw [hs]; exact if_neg hemp, ?_⟩
    intro id
    rw [show (⟨r.v1.map (fun e => (e.1, if e.1.eqKey pkg_id then s \ bins else e.2))⟩ :
        CrateListingV1).v1 = r.v1.map (fun e => (e.1, if e.1.eqKey pkg_id then s \ bins else e.2))
      from rfl]
    rw [lookupPkg_mapEntry]
    cases hid : id.eqKey pkg_id
    · simp only [if_neg (by simp : ¬(false = true))]
      rw [lookupPkg_eq_find]
      cases hf : r.v1.find? (fun e => e.1.eqKey id)
      · simp
      · rename_i e
        have hek : e.1.eqKey id = true := by simpa using List.find?_some hf
        have : e.1.eqKey pkg_id = false := by
          cases hke : e.1.eqKey pkg_id
          · rfl
          · exact absurd (PackageId.pid_eqKey_trans (PackageId.pid_eqKey_symm hek) hke) (by simp [hid])
        simp [this]
    · rw [if_pos rfl, if_neg hemp]
      have hck : lookupPkg r.v1 id = some s := by rw [lookupPkg_congr r.v1 hid, hs]
      rw [lookupPkg_eq_find] at hck
      cases hf : r.v1.find? (fun e => e.1.eqKey id)
      · rw [hf] at hck
        cases hck
      · rename_i e
        rw [hf] at hck
        have hek : e.1.eqKey id = true := by simpa using List.find?_some hf
        simp [PackageId.pid_eqKey_trans hek hid]

theorem removeV2_none (r : CrateListingV2) (pkg_id : PackageId) (bins : Finset String)
    (h : lookupPkg r.installs pkg_id = none) : r.remove pkg_id bins = none := by
  unfold CrateListingV2.remove
  rw [h]

theorem removeV2_lookup (r : CrateListingV2) (pkg_id : PackageId) (bins : Finset String)
    (info : InstallInfo) (hs : lookupPkg r.installs pkg_id = some info) :
    ∃ r', r.remove pkg_id bins = some r' ∧
      ∀ id, lookupPkg r'.installs id =
        if id.eqKey pkg_id then
          (if info.bins \ bins = ∅ then none
           else some { info with bins := info.bins \ bins })
        else lookupPkg r.installs id := by
  by_cases hemp : info.bins \ bins = ∅
  · refine ⟨{ r with installs := r.installs.filter (fun e => !(e.1.eqKey pkg_id)) },
      by unfold CrateListingV2.remove; rw [hs]; exact if_pos hemp, ?_⟩
    intro id
    cases hid : id.eqKey pkg_id
    · simp only [if_neg (by simp : ¬(false = true))]
      apply lookupPkg_filter_of_true
      intro e _ hek
      cases hke : e.1.eqKey pkg_id
      · simp
      · exact absurd (PackageId.pid_eqKey_trans (PackageId.pid_eqKey_symm hek) hke) (by simp [hid])
    · rw [if_pos rfl, if_pos hemp]
      apply lookupPkg_filter_of_false
      intro e _ hek
      simp [PackageId.pid_eqKey_trans hek hid]
  · refine ⟨{ r with installs := r.installs.map (fun e =>
        (e.1, if e.1.eqKey pkg_id then { e.2 with bins := info.bins \ bins } else e.2)) },
      by unfold CrateListingV2.remove; rw [hs]; exact if_neg hemp, ?_⟩
    intro id
    rw [show ({ r with installs := r.installs.map (fun e =>
        (e.1, if e.1.eqKey pkg_id then { e.2 with bins := info.bins \ bins } else e.2)) }
          : CrateListingV2).installs
        = r.installs.map (fun e =>
            (e.1, if e.1.eqKey pkg_id then { e.2 with bins := info.bins \ bins } else e.2))
      from rfl]
    rw [lookupPkg_mapEntry]
    cases hid : id.eqKey pkg_id
    · simp only [if_neg (by simp : ¬(false = true))]
      rw [lookupPkg_eq_find]
      cases hf : r.installs.find? (fun e => e.1.eqKey id)
      · simp
      · rename_i e
        have hek : e.1.eqKey id = true := by simpa using List.find?_some hf
        have : e.1.eqKey pkg_id = false := by
          cases hke : e.1.eqKey pkg_id
          · rfl
          · exact absurd (PackageId.pid_eqKey_trans (PackageId.pid_eqKey_symm hek) hke) (by simp [hid])
        simp [this]
    · rw [if_pos rfl, if_neg hemp]
      have hck : lookupPkg r.installs id = some info := by
        rw [lookupPkg_congr r.installs hid, hs]
      rw [lookupPkg_eq_find] at hck
      cases hf : r.installs.find? (fun e => e.1.eqKey id)
      · rw [hf] at hck
        cases hck
      · rename_i e
        rw [hf] at hck
        have hek : e.1.eqKey id = true := by simpa using List.find?_some hf
        have he2 : e.2 = info := by
          simpa using hck
        simp [PackageId.pid_eqKey_trans hek hid, he2]

/-! ## Lemmas about mark_installed and remove ownership -/

/-- Entries of an entry list that are disjoint from `bins` stay pairwise
disjoint when `bins` is merged into the (unique) entry for a key. -/
theorem mark1_uniq (r : CrateListingV1) (pkg : Package) (bins : Finset String)
    (h : uniqueBinOwners1 r.v1) (hk : nodupKeys r.v1) :
    uniqueBinOwners1 (r.mark_installed pkg bins).v1 ∧
    ∀ e ∈ (r.mark_installed pkg bins).v1,
      e.1.eqKey pkg.package_id = false → e.2 ∩ bins = ∅ := by
  unfold CrateListingV1.mark_installed
  set stripped := r.v1.map (fun e => (e.1, e.2 \ bins)) with hstr
  set pruned := stripped.filter (fun e => decide (e.2 ≠ ∅)) with hpr
  have hstrip_uniq : uniqueBinOwners1 stripped := by
    rw [hstr]
    unfold uniqueBinOwners1
    rw [List.pairwise_map]
    refine h.imp ?_
    intro a b hab
    refine Finset.subset_empty.mp ?_
    calc (a.2 \ bins) ∩ (b.2 \ bins) ⊆ a.2 ∩ b.2 :=
          Finset.inter_subset_inter Finset.sdiff_subset Finset.sdiff_subset
      _ = ∅ := hab
  have hstrip_dis : ∀ e ∈ stripped, e.2 ∩ bins = ∅ := by
    rw [hstr]
    intro e he
    obtain ⟨a, _, rfl⟩ := List.mem_map.mp he
    exact Finset.sdiff_inter_self bins a.2
  have hpr_uniq : uniqueBinOwners1 pruned := hstrip_uniq.sublist (List.filter_sublist _)
  have hpr_dis : ∀ e ∈ pruned, e.2 ∩ bins = ∅ := fun e he =>
    hstrip_dis e (List.mem_of_mem_filter he)
  have hpr_keys : nodupKeys pruned := by
    apply nodupKeys_filter
    rw [hstr]
    exact nodupKeys_mapEntry r.v1 (fun e => e.2 \ bins) hk
  constructor
  · show uniqueBinOwners1 (updOrIns pruned pkg.package_id (fun s => s ∪ bins) bins)
    unfold updOrIns
    cases hc : containsKeyPkg pruned pkg.package_id
    · rw [if_neg (by simp)]
      unfold uniqueBinOwners1
      rw [List.pairwise_append]
      exact ⟨hpr_uniq, List.pairwise_singleton _ _, fun a ha b hb => by
        rw [List.mem_singleton] at hb
        subst hb
        exact hpr_dis a ha⟩
    · rw [if_pos rfl]
      unfold uniqueBinOwners1
      rw [List.pairwise_map]
      refine ((hpr_uniq.and hpr_keys).imp_of_mem ?_)
      intro a b ha hb hab
      obtain ⟨hdis, hne⟩ := hab
      cases hak : a.1.eqKey pkg.package_id <;> cases hbk : b.1.eqKey pkg.package_id <;>
        simp only [hak, hbk, if_pos, if_neg, Bool.false_eq_true, if_false, if_true]
      · exact hdis
      · rw [Finset.inter_comm, Finset.union_inter_distrib_right,
          Finset.inter_comm bins a.2, hpr_dis a ha, Finset.inter_comm b.2 a.2, hdis]
        simp
      · rw [Finset.union_inter_distrib_right, hdis, Finset.inter_comm bins b.2, hpr_dis b hb]
        simp
      · exact absurd (PackageId.pid_eqKey_trans hak (PackageId.pid_eqKey_symm hbk)) (by simp [hne])
  · intro e he hek
    show e.2 ∩ bins = ∅
    revert he
    show e ∈ updOrIns pruned pkg.package_id (fun s => s ∪ bins) bins → _
    unfold updOrIns
    cases hc : containsKeyPkg pruned pkg.package_id
    · rw [if_neg (by simp)]
      intro he
      rcases List.mem_append.mp he with he | he
      · exact hpr_dis e he
      · rw [List.mem_singleton] at he
        subst he
        have hcontra : pkg.package_id.eqKey pkg.package_id = false := hek
        rw [PackageId.pid_eqKey_refl] at hcontra
        cases hcontra
    · rw [if_pos rfl]
      intro he
      obtain ⟨a, ha, hae⟩ := List.mem_map.mp he
      by_cases hak : a.1.eqKey pkg.package_id = true
      · rw [if_pos hak] at hae
        subst hae
        exact absurd hak (by simpa using hek)
      · rw [if_neg hak] at hae
        subst hae
        exact hpr_dis a ha

/-- v2 analogue of `mark1_uniq`. -/
theorem mark2_uniq (r : CrateListingV2) (pkg : Package) (bins : Finset String)
    (version_req : Option String) (opts : CompileOptions) (target : String) (rustc : String)
    (h : uniqueBinOwners2 r.installs) (hk : nodupKeys r.installs) :
    uniqueBinOwners2 (r.mark_installed pkg bins version_req opts target rustc).installs ∧
    ∀ e ∈ (r.mark_installed pkg bins version_req opts target rustc).installs,
      e.1.eqKey pkg.package_id = false → e.2.bins ∩ bins = ∅ := by
  unfold CrateListingV2.mark_installed
  set stripped := r.installs.map (fun e => (e.1, { e.2 with bins := e.2.bins \ bins })) with hstr
  set pruned := stripped.filter (fun e => decide (e.2.bins ≠ ∅)) with hpr
  have hstrip_uniq : uniqueBinOwners2 stripped := by
    rw [hstr]
    unfold uniqueBinOwners2
    rw [List.pairwise_map]
    refine h.imp ?_
    intro a b hab
    refine Finset.subset_empty.mp ?_
    calc (a.2.bins \ bins) ∩ (b.2.bins \ bins) ⊆ a.2.bins ∩ b.2.bins :=
          Finset.inter_subset_inter Finset.sdiff_subset Finset.sdiff_subset
      _ = ∅ := hab
  have hstrip_dis : ∀ e ∈ stripped, e.2.bins ∩ bins = ∅ := by
    rw [hstr]
    intro e he
    obtain ⟨a, _, rfl⟩ := List.mem_map.mp he
    exact Finset.sdiff_inter_self bins a.2.bins
  have hpr_uniq : uniqueBinOwners2 pruned := hstrip_uniq.sublist (List.filter_sublist _)
  have hpr_dis : ∀ e ∈ pruned, e.2.bins ∩ bins = ∅ := fun e he =>
    hstrip_dis e (List.mem_of_mem_filter he)
  have hpr_keys : nodupKeys pruned := by
    apply nodupKeys_filter
    rw [hstr]
    exact nodupKeys_mapEntry r.installs (fun e => { e.2 with bins := e.2.bins \ bins }) hk
  constructor
  · show uniqueBinOwners2 (updOrIns pruned pkg.package_id
      (fun info =>
        { info with
          bins := info.bins ∪ bins
          version_req := version_req
          features := feature_set opts.features
          all_features := opts.all_features
          no_default_features := opts.no_default_features
          profile := opts.requested_profile
          target := some target
          rustc := some rustc })
      { version_req := version_req
        bins := bins
        features := feature_set opts.features
        all_features := opts.all_features
        no_default_features := opts.no_default_features
        profile := opts.requested_profile
        target := some target
        rustc := some rustc
        other := [] })
    unfold updOrIns
    cases hc : containsKeyPkg pruned pkg.package_id
    · rw [if_neg (by simp)]
      unfold uniqueBinOwners2
      rw [List.pairwise_append]
      exact ⟨hpr_uniq, List.pairwise_singleton _ _, fun a ha b hb => by
        rw [List.mem_singleton] at hb
        subst hb
        exact hpr_dis a ha⟩
    · rw [if_pos rfl]
      unfold uniqueBinOwners2
      rw [List.pairwise_map]
      refine ((hpr_uniq.and hpr_keys).imp_of_mem ?_)
      intro a b ha hb hab
      obtain ⟨hdis, hne⟩ := hab
      cases hak : a.1.eqKey pkg.package_id <;> cases hbk : b.1.eqKey pkg.package_id <;>
        simp only [hak, hbk, if_pos, if_neg, Bool.false_eq_true, if_false, if_true]
      · exact hdis
      · rw [Finset.inter_comm, Finset.union_inter_distrib_right,
          Finset.inter_comm bins a.2.bins, hpr_dis a ha, Finset.inter_comm b.2.bins a.2.bins,
          hdis]
        simp
      · rw [Finset.union_inter_distrib_right, hdis, Finset.inter_comm bins b.2.bins,
          hpr_dis b hb]
        simp
      · exact absurd (PackageId.pid_eqKey_trans hak (PackageId.pid_eqKey_symm hbk)) (by simp [hne])
  · intro e he hek
    revert he
    show e ∈ updOrIns pruned pkg.package_id
      (fun info =>
        { info with
          bins := info.bins ∪ bins
          version_req := version_req
          features := feature_set opts.features
          all_features := opts.all_features
          no_default_features := opts.no_default_features
          profile := opts.requested_profile
          target := some target
          rustc := some rustc })
      { version_req := version_req
        bins := bins
        features := feature_set opts.features
        all_features := opts.all_features
        no_default_features := opts.no_default_features
        profile := opts.requested_profile
        target := some target
        rustc := some rustc
        other := [] } → e.2.bins ∩ bins = ∅
    unfold updOrIns
    cases hc : containsKeyPkg pruned pkg.package_id
    · rw [if_neg (by simp)]
      intro he
      rcases List.mem_append.mp he with he | he
      · exact hpr_dis e he
      · rw [List.mem_singleton] at he
        subst he
        have hcontra : pkg.package_id.eqKey pkg.package_id = false := hek
        rw [PackageId.pid_eqKey_refl] at hcontra
        cases hcontra
    · rw [if_pos rfl]
      intro he
      obtain ⟨a, ha, hae⟩ := List.mem_map.mp he
      by_cases hak : a.1.eqKey pkg.package_id = true
      · rw [if_pos hak] at hae
        subst hae
        exact absurd hak (by simpa using hek)
      · rw [if_neg hak] at hae
        subst hae
        exact hpr_dis a ha

/-- Pairwise disjointness survives `remove` on the v1 record. -/
theorem removeV1_uniq (r : CrateListingV1) (pkg_id : PackageId) (bins : Finset String)
    (h : uniqueBinOwners1 r.v1) (hk : nodupKeys r.v1) (r' : CrateListingV1)
    (hr : r.remove pkg_id bins = some r') : uniqueBinOwners1 r'.v1 := by
  unfold CrateListingV1.remove at hr
  cases hlook : lookupPkg r.v1 pkg_id
  · rw [hlook] at hr
    cases hr
  · rename_i s
    rw [hlook] at hr
    have hr2 : (if s \ bins = ∅ then
        some (⟨r.v1.filter (fun e => !(e.1.eqKey pkg_id))⟩ : CrateListingV1)
      else
        some ⟨r.v1.map (fun e => (e.1, if e.1.eqKey pkg_id then s \ bins else e.2))⟩)
        = some r' := hr
    by_cases hemp : s \ bins = ∅
    · rw [if_pos hemp] at hr2
      cases hr2
      exact h.sublist (List.filter_sublist _)
    · rw [if_neg hemp] at hr2
      cases hr2
      show uniqueBinOwners1 (r.v1.map (fun e => (e.1, if e.1.eqKey pkg_id then s \ bins else e.2)))
      unfold uniqueBinOwners1
      rw [List.pairwise_map]
      refine ((h.and hk).imp_of_mem ?_)
      intro a b ha hb hab
      obtain ⟨hdis, hne⟩ := hab
      have hsub : ∀ (c : PackageId × Finset String), c ∈ r.v1 →
          (if c.1.eqKey pkg_id then s \ bins else c.2) ⊆ c.2 := by
        intro c hc
        cases hck : c.1.eqKey pkg_id
        · simp
        · have : lookupPkg r.v1 pkg_id = some c.2 := lookupPkg_eq_of_mem_nodup hk hc hck
          rw [hlook] at this
          cases this
          simp only [if_pos rfl]
          exact Finset.sdiff_subset
      refine Finset.subset_empty.mp ?_
      calc (if a.1.eqKey pkg_id then s \ bins else a.2) ∩ (if b.1.eqKey pkg_id then s \ bins else b.2)
            ⊆ a.2 ∩ b.2 := Finset.inter_subset_inter (hsub a ha) (hsub b hb)
        _ = ∅ := hdis

/-- Pairwise disjointness survives `remove` on the v2 record. -/
theorem removeV2_uniq (r : CrateListingV2) (pkg_id : PackageId) (bins : Finset String)
    (h : uniqueBinOwners2 r.installs) (hk : nodupKeys r.installs) (r' : CrateListingV2)
    (hr : r.remove pkg_id bins = some r') : uniqueBinOwners2 r'.installs := by
  unfold CrateListingV2.remove at hr
  cases hlook : lookupPkg r.installs pkg_id
  · rw [hlook] at hr
    cases hr
  · rename_i info
    rw [hlook] at hr
    have hr2 : (if info.bins \ bins = ∅ then
        some { r with installs := r.installs.filter (fun e => !(e.1.eqKey pkg_id)) }
      else
        some { r with installs := r.installs.map (fun e =>
          (e.1, if e.1.eqKey pkg_id then { e.2 with bins := info.bins \ bins } else e.2)) })
        = some r' := hr
    by_cases hemp : info.bins \ bins = ∅
    · rw [if_pos hemp] at hr2
      cases hr2
      exact h.sublist (List.filter_sublist _)
    · rw [if_neg hemp] at hr2
      cases hr2
      show uniqueBinOwners2 (r.installs.map (fun e =>
        (e.1, if e.1.eqKey pkg_id then { e.2 with bins := info.bins \ bins } else e.2)))
      unfold uniqueBinOwners2
      rw [List.pairwise_map]
      refine ((h.and hk).imp_of_mem ?_)
      intro a b ha hb hab
      obtain ⟨hdis, hne⟩ := hab
      have hsub : ∀ (c : PackageId × InstallInfo), c ∈ r.installs →
          (if c.1.eqKey pkg_id then { c.2 with bins := info.bins \ bins } else c.2).bins
            ⊆ c.2.bins := by
        intro c hc
        cases hck : c.1.eqKey pkg_id
        · simp
        · have : lookupPkg r.installs pkg_id = some c.2 := lookupPkg_eq_of_mem_nodup hk hc hck
          rw [hlook] at this
          cases this
          simp only [if_pos rfl]
          exact Finset.sdiff_subset
      refine Finset.subset_empty.mp ?_
      calc (if a.1.eqKey pkg_id then { a.2 with bins := info.bins \ bins } else a.2).bins
            ∩ (if b.1.eqKey pkg_id then { b.2 with bins := info.bins \ bins } else b.2).bins
            ⊆ a.2.bins ∩ b.2.bins := Finset.inter_subset_inter (hsub a ha) (hsub b hb)
        _ = ∅ := hdis

/-! ## Lemmas about sync_v1 -/

theorem containsKeyPkg_congr {V : Type} {a b : PackageId} (l : List (PackageId × V))
    (hab : a.eqKey b = true) : containsKeyPkg l a = containsKeyPkg l b := by
  rw [containsKeyPkg_iff_isSome, containsKeyPkg_iff_isSome, lookupPkg_congr l hab]

theorem containsKeyPkg_updOrIns {V : Type} (l : List (PackageId × V)) (k : PackageId)
    (f : V → V) (d : V) (x : PackageId) :
    containsKeyPkg (updOrIns l k f d) x = (containsKeyPkg l x || x.eqKey k) := by
  rw [containsKeyPkg_iff_isSome, lookupPkg_updOrIns]
  cases hx : x.eqKey k
  · simp only [Bool.false_eq_true, if_false, Bool.or_false]
    rw [containsKeyPkg_iff_isSome]
  · simp only [if_true, Bool.or_true]
    cases lookupPkg l k <;> simp

theorem mem_keys_eqKey_false {V : Type} {l : List (PackageId × V)} {x : PackageId}
    (h : containsKeyPkg l x = false) {e : PackageId × V} (he : e ∈ l) :
    e.1.eqKey x = false := by
  cases hek : e.1.eqKey x
  · rfl
  · exfalso
    have : containsKeyPkg l x = true := by
      unfold containsKeyPkg
      rw [List.any_eq_true]
      exact ⟨e, he, hek⟩
    rw [h] at this
    cases this

/-- Characterization of the first loop of `sync_v1`: entries of `l` whose key
`w` tracks get their bins overwritten, and `w`-entries new to `l` are
appended as `from_v1` records. -/
theorem sync_fold_spec (w : List (PackageId × Finset String))
    (l : List (PackageId × InstallInfo)) (hw : nodupKeys w) (hl : nodupKeys l) :
    w.foldl (fun acc kb =>
        updOrIns acc kb.1 (fun info => { info with bins := kb.2 }) (InstallInfo.from_v1 kb.2)) l
      = l.map (modifAt w)
        ++ (w.filter (fun kb => !(containsKeyPkg l kb.1))).map
            (fun kb => (kb.1, InstallInfo.from_v1 kb.2)) := by
  induction w generalizing l with
  | nil =>
      simp only [List.foldl_nil, List.filter_nil, List.map_nil, List.append_nil]
      have : ∀ e ∈ l, modifAt [] e = e := by
        intro e _
        unfold modifAt modifBins
        rw [lookupPkg_nil]
      rw [List.map_congr_left this, List.map_id']
  | cons kb w' ih =>
      have hw' : nodupKeys w' := (List.pairwise_cons.mp hw).2
      have hkb : ∀ x ∈ w', kb.1.eqKey x.1 = false := (List.pairwise_cons.mp hw).1
      have hkbw' : containsKeyPkg w' kb.1 = false := by
        cases hc : containsKeyPkg w' kb.1
        · rfl
        · exfalso
          unfold containsKeyPkg at hc
          rw [List.any_eq_true] at hc
          obtain ⟨e, he, hek⟩ := hc
          have := hkb e he
          rw [PackageId.pid_eqKey_symm hek] at this
          cases this
      rw [List.foldl_cons]
      cases hc : containsKeyPkg l kb.1
      · -- kb's key is new to l: append a from_v1 entry
        have hupd : updOrIns l kb.1 (fun info => { info with bins := kb.2 })
            (InstallInfo.from_v1 kb.2) = l ++ [(kb.1, InstallInfo.from_v1 kb.2)] := by
          unfold updOrIns
          rw [hc]
          simp
        rw [hupd, ih _ hw' (by
          rw [← hupd]
          exact nodupKeys_updOrIns l kb.1 _ _ hl)]
        have hmap : (l ++ [(kb.1, InstallInfo.from_v1 kb.2)]).map (modifAt w')
            = l.map (modifAt (kb :: w')) ++ [(kb.1, InstallInfo.from_v1 kb.2)] := by
          rw [List.map_append]
          congr 1
          · apply List.map_congr_left
            intro e he
            unfold modifAt modifBins
            rw [lookupPkg_cons]
            rw [show kb.1.eqKey e.1 = false from by
              have := mem_keys_eqKey_false hc he
              cases hek : kb.1.eqKey e.1
              · rfl
              · rw [PackageId.pid_eqKey_symm hek] at this
                cases this]
            simp
          · simp only [List.map_cons, List.map_nil]
            unfold modifAt modifBins
            rw [show lookupPkg w' (kb.1, InstallInfo.from_v1 kb.2).1 = none from by
              rw [containsKeyPkg_iff_isSome] at hkbw'
              cases hlk : lookupPkg w' kb.1
              · rfl
              · rw [hlk] at hkbw'
                cases hkbw']
        rw [hmap]
        have hfil : w'.filter (fun x => !(containsKeyPkg (l ++ [(kb.1, InstallInfo.from_v1 kb.2)]) x.1))
            = w'.filter (fun x => !(containsKeyPkg l x.1)) := by
          apply List.filter_congr
          intro x hx
          have : containsKeyPkg (l ++ [(kb.1, InstallInfo.from_v1 kb.2)]) x.1
              = containsKeyPkg l x.1 := by
            unfold containsKeyPkg
            rw [List.any_append]
            simp only [List.any_cons, List.any_nil, Bool.or_false]
            rw [show ((kb.1, InstallInfo.from_v1 kb.2) : PackageId × InstallInfo).1.eqKey x.1
                = false from hkb x hx]
            simp
          rw [this]
        rw [hfil]
        have hfil2 : (kb :: w').filter (fun x => !(containsKeyPkg l x.1))
            = kb :: w'.filter (fun x => !(containsKeyPkg l x.1)) := by
          rw [List.filter_cons, hc]
          simp
        rw [hfil2, List.map_cons, List.append_assoc]
        rfl
      · -- kb's key already in l: modify in place
        have hupd : updOrIns l kb.1 (fun info => { info with bins := kb.2 })
            (InstallInfo.from_v1 kb.2)
            = l.map (fun e => if e.1.eqKey kb.1 then
                (e.1, { e.2 with bins := kb.2 }) else e) := by
          unfold updOrIns
          rw [hc]
          simp
        rw [hupd, ih _ hw' (by
          rw [← hupd]
          exact nodupKeys_updOrIns l kb.1 _ _ hl)]
        have hmap : (l.map (fun e => if e.1.eqKey kb.1 then
            (e.1, { e.2 with bins := kb.2 }) else e)).map (modifAt w')
            = l.map (modifAt (kb :: w')) := by
          rw [List.map_map]
          apply List.map_congr_left
          intro e _
          show modifAt w' (if e.1.eqKey kb.1 then (e.1, { e.2 with bins := kb.2 }) else e)
            = modifAt (kb :: w') e
          cases hek : e.1.eqKey kb.1
          · simp only [Bool.false_eq_true, if_false]
            unfold modifAt modifBins
            rw [lookupPkg_cons]
            rw [show kb.1.eqKey e.1 = false from by
              cases h2 : kb.1.eqKey e.1
              · rfl
              · rw [PackageId.pid_eqKey_symm h2] at hek
                cases hek]
            simp
          · simp only [if_true]
            unfold modifAt modifBins
            have hnolook : lookupPkg w' e.1 = none := by
              have : containsKeyPkg w' e.1 = false := by
                rw [containsKeyPkg_congr w' hek]
                exact hkbw'
              rw [containsKeyPkg_iff_isSome] at this
              cases hlk : lookupPkg w' e.1
              · rfl
              · rw [hlk] at this
                cases this
            rw [show lookupPkg w' ((e.1, { e.2 with bins := kb.2 }) :
                PackageId × InstallInfo).1 = none from hnolook]
            rw [lookupPkg_cons]
            rw [PackageId.pid_eqKey_symm hek]
            simp
        rw [hmap]
        have hfil : w'.filter (fun x => !(containsKeyPkg (l.map (fun e =>
            if e.1.eqKey kb.1 then (e.1, { e.2 with bins := kb.2 }) else e)) x.1))
            = w'.filter (fun x => !(containsKeyPkg l x.1)) := by
          apply List.filter_congr
          intro x hx
          have hcont : containsKeyPkg (l.map (fun e =>
              if e.1.eqKey kb.1 then (e.1, { e.2 with bins := kb.2 }) else e)) x.1
              = containsKeyPkg l x.1 := by
            unfold containsKeyPkg
            rw [List.any_map]
            congr 1
            funext e
            show ((if e.1.eqKey kb.1 then (e.1, { e.2 with bins := kb.2 }) else e).1.eqKey x.1)
              = e.1.eqKey x.1
            cases hek : e.1.eqKey kb.1 <;> simp
          rw [hcont]
        rw [hfil]
        have hfil2 : (kb :: w').filter (fun x => !(containsKeyPkg l x.1))
            = w'.filter (fun x => !(containsKeyPkg l x.1)) := by
          rw [List.filter_cons, hc]
          simp
        rw [hfil2]

theorem containsKeyPkg_append {V : Type} (l1 l2 : List (PackageId × V)) (k : PackageId) :
    containsKeyPkg (l1 ++ l2) k = (containsKeyPkg l1 k || containsKeyPkg l2 k) := by
  unfold containsKeyPkg
  rw [List.any_append]

theorem containsKeyPkg_of_mem {V : Type} {l : List (PackageId × V)} {e : PackageId × V}
    (he : e ∈ l) {k : PackageId} (hk : e.1.eqKey k = true) : containsKeyPkg l k = true := by
  unfold containsKeyPkg
  rw [List.any_eq_true]
  exact ⟨e, he, hk⟩

/-- `sync_v1` in closed form: keep the v2 entries v1 tracks with their bins
overwritten, then append `from_v1` entries for v1 ids new to v2. -/
theorem sync_installs_eq (v2 : CrateListingV2) (v1 : CrateListingV1)
    (h1 : nodupKeys v1.v1) (h2 : nodupKeys v2.installs) :
    (v2.sync_v1 v1).installs
      = (v2.installs.filter (fun e => containsKeyPkg v1.v1 e.1)).map (modifAt v1.v1)
        ++ (v1.v1.filter (fun kb => !(containsKeyPkg v2.installs kb.1))).map
            (fun kb => (kb.1, InstallInfo.from_v1 kb.2)) := by
  show ((v1.v1.foldl (fun acc kb => updOrIns acc kb.1
      (fun info => { info with bins := kb.2 }) (InstallInfo.from_v1 kb.2)) v2.installs).filter
        (fun e => containsKeyPkg v1.v1 e.1)) = _
  rw [sync_fold_spec v1.v1 v2.installs h1 h2, List.filter_append]
  congr 1
  · rw [List.filter_map]
    rfl
  · rw [List.filter_eq_self.mpr]
    intro e he
    obtain ⟨kb, hkb, rfl⟩ := List.mem_map.mp he
    show containsKeyPkg v1.v1 kb.1 = true
    unfold containsKeyPkg
    rw [List.any_eq_true]
    exact ⟨kb, List.mem_of_mem_filter hkb, PackageId.pid_eqKey_refl kb.1⟩

/-- The reconciled record has unique keys. -/
theorem nodupKeys_sync (v2 : CrateListingV2) (v1 : CrateListingV1)
    (h1 : nodupKeys v1.v1) (h2 : nodupKeys v2.installs) :
    nodupKeys (v2.sync_v1 v1).installs := by
  rw [sync_installs_eq v2 v1 h1 h2]
  unfold nodupKeys
  rw [List.pairwise_append]
  refine ⟨?_, ?_, ?_⟩
  · exact nodupKeys_mapEntry (v2.installs.filter (fun e => containsKeyPkg v1.v1 e.1))
      (fun e => modifBins v1.v1 e) (nodupKeys_filter _ _ h2)
  · exact nodupKeys_mapEntry (v1.v1.filter (fun kb => !(containsKeyPkg v2.installs kb.1)))
      (fun kb => InstallInfo.from_v1 kb.2) (nodupKeys_filter _ _ h1)
  · intro a ha b hb
    obtain ⟨ea, hea, rfl⟩ := List.mem_map.mp ha
    obtain ⟨kb, hkb, rfl⟩ := List.mem_map.mp hb
    show ea.1.eqKey kb.1 = false
    have hav2 : ea ∈ v2.installs := List.mem_of_mem_filter hea
    have hbnv2 : containsKeyPkg v2.installs kb.1 = false := by
      have := (List.mem_filter.mp hkb).2
      cases hc : containsKeyPkg v2.installs kb.1
      · rfl
      · rw [hc] at this
        cases this
    cases hek : ea.1.eqKey kb.1
    · rfl
    · exfalso
      have : containsKeyPkg v2.installs kb.1 = true := by
        unfold containsKeyPkg
        rw [List.any_eq_true]
        exact ⟨ea, hav2, hek⟩
      rw [hbnv2] at this
      cases this

/-- `modifAt` is idempotent. -/
theorem modifAt_idem (w : List (PackageId × Finset String)) (e : PackageId × InstallInfo) :
    modifAt w (modifAt w e) = modifAt w e := by
  unfold modifAt modifBins
  cases hlk : lookupPkg w e.1 <;> simp [hlk]

/-- `modifAt` leaves every entry of a reconciled record unchanged. -/
theorem modifAt_sync_id (v2 : CrateListingV2) (v1 : CrateListingV1)
    (h1 : nodupKeys v1.v1) (h2 : nodupKeys v2.installs) :
    ∀ e ∈ (v2.sync_v1 v1).installs, modifAt v1.v1 e = e := by
  intro e he
  rw [sync_installs_eq v2 v1 h1 h2] at he
  rcases List.mem_append.mp he with he | he
  · obtain ⟨x, hx, rfl⟩ := List.mem_map.mp he
    exact modifAt_idem v1.v1 x
  · obtain ⟨kb, hkb, rfl⟩ := List.mem_map.mp he
    have hlk : lookupPkg v1.v1 kb.1 = some kb.2 :=
      lookupPkg_eq_of_mem_nodup h1 (List.mem_of_mem_filter hkb) (PackageId.pid_eqKey_refl _)
    unfold modifAt modifBins
    simp only [hlk]
    rfl

/-- Every v1 id is present in the reconciled record. -/
theorem sync_contains_of_v1 (v2 : CrateListingV2) (v1 : CrateListingV1)
    (h1 : nodupKeys v1.v1) (h2 : nodupKeys v2.installs) :
    ∀ kb ∈ v1.v1, containsKeyPkg (v2.sync_v1 v1).installs kb.1 = true := by
  intro kb hkb
  rw [sync_installs_eq v2 v1 h1 h2, containsKeyPkg_append, Bool.or_eq_true]
  cases hcv2 : containsKeyPkg v2.installs kb.1
  · right
    refine containsKeyPkg_of_mem (List.mem_map_of_mem _ ?_) (PackageId.pid_eqKey_refl kb.1)
    rw [List.mem_filter]
    exact ⟨hkb, by rw [hcv2]; rfl⟩
  · left
    obtain ⟨e, he, hek⟩ : ∃ e ∈ v2.installs, e.1.eqKey kb.1 = true := by
      unfold containsKeyPkg at hcv2
      rw [List.any_eq_true] at hcv2
      exact hcv2
    refine containsKeyPkg_of_mem (List.mem_map_of_mem (modifAt v1.v1) ?_)
      (show (modifAt v1.v1 e).1.eqKey kb.1 = true from hek)
    rw [List.mem_filter]
    exact ⟨he, containsKeyPkg_of_mem hkb (PackageId.pid_eqKey_symm hek)⟩

/-! ## Lemmas about record agreement -/

/-- `lookupPkg` through a value-only filter, under unique keys. -/
theorem lookupPkg_filter_val {V : Type} (l : List (PackageId × V)) (q : V → Bool)
    (k : PackageId) (hnd : nodupKeys l) :
    lookupPkg (l.filter (fun e => q e.2)) k =
      match lookupPkg l k with
      | some v => if q v then some v else none
      | none => none := by
  rw [lookupPkg_filter_nodup l (fun e => q e.2) k hnd, lookupPkg_eq_find]
  cases hf : l.find? (fun e => e.1.eqKey k) <;> simp

/-- Looking up in `l.map (modifAt w)` rewrites the found value's bins. -/
theorem lookupPkg_map_modifAt (w : List (PackageId × Finset String))
    (l : List (PackageId × InstallInfo)) (k : PackageId) :
    lookupPkg (l.map (modifAt w)) k =
      match lookupPkg l k, lookupPkg w k with
      | some i, some b => some { i with bins := b }
      | some i, none => some i
      | none, _ => none := by
  rw [show modifAt w = fun e => (e.1, modifBins w e) from rfl, lookupPkg_mapEntry,
    lookupPkg_eq_find]
  cases hf : l.find? (fun e => e.1.eqKey k)
  · simp
  · rename_i e
    have hek : e.1.eqKey k = true := by simpa using List.find?_some hf
    show some (modifBins w e) = _
    unfold modifBins
    rw [lookupPkg_congr w hek]
    cases hw : lookupPkg w k <;> simp

/-- Reconciliation establishes agreement of the two records. -/
theorem sync_agree (v1 : CrateListingV1) (v2 : CrateListingV2)
    (h1 : nodupKeys v1.v1) (h2 : nodupKeys v2.installs) :
    recordsAgree v1 (v2.sync_v1 v1) := by
  intro id
  rw [sync_installs_eq v2 v1 h1 h2, lookupPkg_append]
  have hA : lookupPkg ((v2.installs.filter (fun e => containsKeyPkg v1.v1 e.1)).map
      (modifAt v1.v1)) id =
      match lookupPkg (v2.installs.filter (fun e => containsKeyPkg v1.v1 e.1)) id,
        lookupPkg v1.v1 id with
      | some i, some b => some { i with bins := b }
      | some i, none => some i
      | none, _ => none := lookupPkg_map_modifAt v1.v1 _ id
  have hfiltA : lookupPkg (v2.installs.filter (fun e => containsKeyPkg v1.v1 e.1)) id =
      match lookupPkg v1.v1 id with
      | some _ => lookupPkg v2.installs id
      | none => none := by
    cases hv1 : lookupPkg v1.v1 id
    · apply lookupPkg_filter_of_false
      intro e _ hek
      rw [containsKeyPkg_congr v1.v1 hek, containsKeyPkg_iff_isSome, hv1]
      rfl
    · apply lookupPkg_filter_of_true
      intro e _ hek
      rw [containsKeyPkg_congr v1.v1 hek, containsKeyPkg_iff_isSome, hv1]
      rfl
  cases hv1 : lookupPkg v1.v1 id
  · -- id untracked in v1: both sides none
    rw [hA, hfiltA, hv1]
    show (none : Option (Finset String)) =
      (lookupPkg ((v1.v1.filter (fun kb => !(containsKeyPkg v2.installs kb.1))).map
        (fun kb => (kb.1, InstallInfo.from_v1 kb.2))) id).map (·.bins)
    rw [show (fun kb : PackageId × Finset String => (kb.1, InstallInfo.from_v1 kb.2))
        = fun kb => (kb.1, (fun e : PackageId × Finset String => InstallInfo.from_v1 e.2) kb)
      from rfl, lookupPkg_mapEntry]
    have hfind : (v1.v1.filter (fun kb => !(containsKeyPkg v2.installs kb.1))).find?
        (fun e => e.1.eqKey id) = none := by
      rw [List.find?_eq_none]
      intro e he hek
      have he1 : e ∈ v1.v1 := List.mem_of_mem_filter he
      have : lookupPkg v1.v1 id ≠ none := by
        rw [lookupPkg_congr v1.v1 (PackageId.pid_eqKey_symm (by simpa using hek))]
        intro hcon
        have := containsKeyPkg_of_mem he1 (PackageId.pid_eqKey_refl e.1)
        rw [containsKeyPkg_iff_isSome, hcon] at this
        cases this
      exact absurd hv1 this
    rw [hfind]
    rfl
  · rename_i b
    rw [hA, hfiltA, hv1]
    cases hv2 : lookupPkg v2.installs id
    · -- id new to v2: served by the appended from_v1 entry
      show some b = _
      rw [show (fun kb : PackageId × Finset String => (kb.1, InstallInfo.from_v1 kb.2))
          = fun kb => (kb.1, (fun e : PackageId × Finset String => InstallInfo.from_v1 e.2) kb)
        from rfl, lookupPkg_mapEntry]
      have hlf : lookupPkg (v1.v1.filter (fun kb => !(containsKeyPkg v2.installs kb.1))) id
          = some b := by
        rw [lookupPkg_filter_of_true]
        · exact hv1
        · intro e _ hek
          rw [show (!(containsKeyPkg v2.installs e.1)) = true ↔
              containsKeyPkg v2.installs e.1 = false from by simp]
          rw [containsKeyPkg_congr v2.installs hek, containsKeyPkg_iff_isSome, hv2]
          rfl
      rw [lookupPkg_eq_find] at hlf
      cases hf : (v1.v1.filter (fun kb => !(containsKeyPkg v2.installs kb.1))).find?
          (fun e => e.1.eqKey id)
      · rw [hf] at hlf
        cases hlf
      · rename_i kb0
        rw [hf] at hlf
        have hkb0 : kb0.2 = b := by simpa using hlf
        show some b = some ((InstallInfo.from_v1 kb0.2).bins)
        rw [show (InstallInfo.from_v1 kb0.2).bins = kb0.2 from rfl, hkb0]
    · rename_i i
      show some b = (some { i with bins := b }).map (·.bins)
      rfl

theorem lookupPkg_strip1 (l : List (PackageId × Finset String)) (bins : Finset String)
    (id : PackageId) :
    lookupPkg (l.map (fun e => (e.1, e.2 \ bins))) id = (lookupPkg l id).map (· \ bins) := by
  rw [lookupPkg_mapEntry, lookupPkg_eq_find]
  cases l.find? (fun e => e.1.eqKey id) <;> rfl

theorem lookupPkg_strip2 (l : List (PackageId × InstallInfo)) (bins : Finset String)
    (id : PackageId) :
    lookupPkg (l.map (fun e => (e.1, { e.2 with bins := e.2.bins \ bins }))) id
      = (lookupPkg l id).map (fun i => { i with bins := i.bins \ bins }) := by
  rw [lookupPkg_mapEntry, lookupPkg_eq_find]
  cases l.find? (fun e => e.1.eqKey id) <;> rfl

/-- `CrateListingV1.mark_installed` in closed form. -/
theorem markV1_eq (r : CrateListingV1) (pkg : Package) (bins : Finset String) :
    (r.mark_installed pkg bins).v1
      = updOrIns ((r.v1.map (fun e => (e.1, e.2 \ bins))).filter
          (fun e => decide (e.2 ≠ ∅))) pkg.package_id (fun s => s ∪ bins) bins := rfl

/-- `CrateListingV2.mark_installed` in closed form. -/
theorem markV2_eq (r : CrateListingV2) (pkg : Package) (bins : Finset String)
    (version_req : Option String) (opts : CompileOptions) (target rustc : String) :
    (r.mark_installed pkg bins version_req opts target rustc).installs
      = updOrIns ((r.installs.map (fun e =>
            (e.1, { e.2 with bins := e.2.bins \ bins }))).filter
          (fun e => decide (e.2.bins ≠ ∅))) pkg.package_id
          (fun info =>
            { info with
              bins := info.bins ∪ bins
              version_req := version_req
              features := feature_set opts.features
              all_features := opts.all_features
              no_default_features := opts.no_default_features
              profile := opts.requested_profile
              target := some target
              rustc := some rustc })
          { version_req := version_req
            bins := bins
            features := feature_set opts.features
            all_features := opts.all_features
            no_default_features := opts.no_default_features
            profile := opts.requested_profile
            target := some target
            rustc := some rustc
            other := [] } := rfl

/-- `mark_installed` preserves agreement and key uniqueness. -/
theorem mark_agree (t : InstallTracker) (hA : recordsAgree t.v1 t.v2)
    (hn1 : nodupKeys t.v1.v1) (hn2 : nodupKeys t.v2.installs)
    (pkg : Package) (bins : Finset String) (version_req : Option String)
    (opts : CompileOptions) (target rustc : String) :
    recordsAgree (t.mark_installed pkg bins version_req opts target rustc).v1
      (t.mark_installed pkg bins version_req opts target rustc).v2 ∧
    nodupKeys (t.mark_installed pkg bins version_req opts target rustc).v1.v1 ∧
    nodupKeys (t.mark_installed pkg bins version_req opts target rustc).v2.installs := by
  have hstr1 : nodupKeys (t.v1.v1.map (fun e => (e.1, e.2 \ bins))) :=
    nodupKeys_mapEntry t.v1.v1 (fun e => e.2 \ bins) hn1
  have hstr2 : nodupKeys (t.v2.installs.map (fun e =>
      (e.1, { e.2 with bins := e.2.bins \ bins }))) :=
    nodupKeys_mapEntry t.v2.installs (fun e => { e.2 with bins := e.2.bins \ bins }) hn2
  have hpr_agree : ∀ id,
      lookupPkg ((t.v1.v1.map (fun e => (e.1, e.2 \ bins))).filter
        (fun e => decide (e.2 ≠ ∅))) id
      = (lookupPkg ((t.v2.installs.map (fun e =>
          (e.1, { e.2 with bins := e.2.bins \ bins }))).filter
            (fun e => decide (e.2.bins ≠ ∅))) id).map (·.bins) := by
    intro id
    rw [lookupPkg_filter_val _ (fun s => decide (s ≠ ∅)) id hstr1,
      lookupPkg_filter_val _ (fun i => decide (i.bins ≠ ∅)) id hstr2,
      lookupPkg_strip1, lookupPkg_strip2, hA id]
    cases lookupPkg t.v2.installs id
    · rfl
    · rename_i i
      by_cases hemp : i.bins \ bins = ∅ <;> simp [hemp]
  refine ⟨?_, ?_, ?_⟩
  · intro id
    show lookupPkg ((t.v1.mark_installed pkg bins).v1) id
      = (lookupPkg ((t.v2.mark_installed pkg bins version_req opts target rustc).installs)
          id).map (·.bins)
    rw [markV1_eq, markV2_eq, lookupPkg_updOrIns, lookupPkg_updOrIns]
    cases hid : id.eqKey pkg.package_id
    · simp only [Bool.false_eq_true, if_false]
      exact hpr_agree id
    · simp only [if_true]
      cases h2k : lookupPkg ((t.v2.installs.map (fun e =>
          (e.1, { e.2 with bins := e.2.bins \ bins }))).filter
            (fun e => decide (e.2.bins ≠ ∅))) pkg.package_id
      · rw [show lookupPkg ((t.v1.v1.map (fun e => (e.1, e.2 \ bins))).filter
            (fun e => decide (e.2 ≠ ∅))) pkg.package_id = none from by
          rw [hpr_agree pkg.package_id, h2k]
          rfl]
        rfl
      · rename_i i
        rw [show lookupPkg ((t.v1.v1.map (fun e => (e.1, e.2 \ bins))).filter
            (fun e => decide (e.2 ≠ ∅))) pkg.package_id = some i.bins from by
          rw [hpr_agree pkg.package_id, h2k]
          rfl]
        rfl
  · show nodupKeys ((t.v1.mark_installed pkg bins).v1)
    rw [markV1_eq]
    exact nodupKeys_updOrIns _ _ _ _ (nodupKeys_filter _ _ hstr1)
  · show nodupKeys ((t.v2.mark_installed pkg bins version_req opts target rustc).installs)
    rw [markV2_eq]
    exact nodupKeys_updOrIns _ _ _ _ (nodupKeys_filter _ _ hstr2)

/-- `remove` preserves key uniqueness of the v1 record. -/
theorem removeV1_keys (r : CrateListingV1) (pkg_id : PackageId) (bins : Finset String)
    (hk : nodupKeys r.v1) (r' : CrateListingV1) (hr : r.remove pkg_id bins = some r') :
    nodupKeys r'.v1 := by
  unfold CrateListingV1.remove at hr
  cases hlook : lookupPkg r.v1 pkg_id
  · rw [hlook] at hr
    cases hr
  · rename_i s
    rw [hlook] at hr
    have hr2 : (if s \ bins = ∅ then
        some (⟨r.v1.filter (fun e => !(e.1.eqKey pkg_id))⟩ : CrateListingV1)
      else
        some ⟨r.v1.map (fun e => (e.1, if e.1.eqKey pkg_id then s \ bins else e.2))⟩)
        = some r' := hr
    by_cases hemp : s \ bins = ∅
    · rw [if_pos hemp] at hr2
      cases hr2
      exact nodupKeys_filter _ _ hk
    · rw [if_neg hemp] at hr2
      cases hr2
      exact nodupKeys_mapEntry _ (fun e => if e.1.eqKey pkg_id then s \ bins else e.2) hk

/-- `remove` preserves key uniqueness of the v2 record. -/
theorem removeV2_keys (r : CrateListingV2) (pkg_id : PackageId) (bins : Finset String)
    (hk : nodupKeys r.installs) (r' : CrateListingV2) (hr : r.remove pkg_id bins = some r') :
    nodupKeys r'.installs := by
  unfold CrateListingV2.remove at hr
  cases hlook : lookupPkg r.installs pkg_id
  · rw [hlook] at hr
    cases hr
  · rename_i info
    rw [hlook] at hr
    have hr2 : (if info.bins \ bins = ∅ then
        some { r with installs := r.installs.filter (fun e => !(e.1.eqKey pkg_id)) }
      else
        some { r with installs := r.installs.map (fun e =>
          (e.1, if e.1.eqKey pkg_id then { e.2 with bins := info.bins \ bins } else e.2)) })
        = some r' := hr
    by_cases hemp : info.bins \ bins = ∅
    · rw [if_pos hemp] at hr2
      cases hr2
      exact nodupKeys_filter _ _ hk
    · rw [if_neg hemp] at hr2
      cases hr2
      exact nodupKeys_mapEntry _
        (fun e => if e.1.eqKey pkg_id then { e.2 with bins := info.bins \ bins } else e.2) hk

/-- `remove` preserves agreement and key uniqueness. -/
theorem remove_agree (t : InstallTracker) (hA : recordsAgree t.v1 t.v2)
    (hn1 : nodupKeys t.v1.v1) (hn2 : nodupKeys t.v2.installs)
    (pkg_id : PackageId) (bins : Finset String) (t' : InstallTracker)
    (h : t.remove pkg_id bins = some t') :
    recordsAgree t'.v1 t'.v2 ∧ nodupKeys t'.v1.v1 ∧ nodupKeys t'.v2.installs := by
  unfold InstallTracker.remove at h
  cases hv1r : t.v1.remove pkg_id bins
  · rw [hv1r] at h
    cases h
  · rename_i r1
    rw [hv1r] at h
    cases hv2r : t.v2.remove pkg_id bins
    · rw [hv2r] at h
      cases h
    · rename_i r2
      rw [hv2r] at h
      cases h
      refine ⟨?_, removeV1_keys t.v1 pkg_id bins hn1 r1 hv1r,
        removeV2_keys t.v2 pkg_id bins hn2 r2 hv2r⟩
      -- the panic-free path implies both lookups succeeded
      obtain ⟨s, hs⟩ : ∃ s, lookupPkg t.v1.v1 pkg_id = some s := by
        cases hlk : lookupPkg t.v1.v1 pkg_id
        · rw [removeV1_none t.v1 pkg_id bins hlk] at hv1r
          cases hv1r
        · exact ⟨_, rfl⟩
      obtain ⟨info, hinfo⟩ : ∃ info, lookupPkg t.v2.installs pkg_id = some info := by
        cases hlk : lookupPkg t.v2.installs pkg_id
        · rw [removeV2_none t.v2 pkg_id bins hlk] at hv2r
          cases hv2r
        · exact ⟨_, rfl⟩
      have hbins : info.bins = s := by
        have := hA pkg_id
        rw [hs, hinfo] at this
        simpa using this.symm
      obtain ⟨r1', hr1', hl1⟩ := removeV1_lookup t.v1 pkg_id bins s hs
      obtain ⟨r2', hr2', hl2⟩ := removeV2_lookup t.v2 pkg_id bins info hinfo
      rw [hv1r] at hr1'
      rw [hv2r] at hr2'
      cases hr1'
      cases hr2'
      intro id
      rw [hl1 id, hl2 id]
      cases hid : id.eqKey pkg_id
      · simp only [Bool.false_eq_true, if_false]
        exact hA id
      · simp only [if_true, hbins]
        by_cases hemp : s \ bins = ∅
        · rw [if_pos hemp, if_pos hemp]
          rfl
        · rw [if_neg hemp, if_neg hemp]
          rfl

/-- One mutation preserves agreement and key uniqueness. -/
theorem applyOp_agree (t : InstallTracker) (hA : recordsAgree t.v1 t.v2)
    (hn1 : nodupKeys t.v1.v1) (hn2 : nodupKeys t.v2.installs)
    (op : Op) (t' : InstallTracker) (h : t.applyOp op = some t') :
    recordsAgree t'.v1 t'.v2 ∧ nodupKeys t'.v1.v1 ∧ nodupKeys t'.v2.installs := by
  cases op with
  | mark pkg bins vr opts target rustc =>
      unfold InstallTracker.applyOp at h
      cases h
      exact mark_agree t hA hn1 hn2 pkg bins vr opts target rustc
  | remove pkg_id bins =>
      unfold InstallTracker.applyOp at h
      exact remove_agree t hA hn1 hn2 pkg_id bins t' h

theorem applyOps_agree (ops : List Op) (t : InstallTracker)
    (hA : recordsAgree t.v1 t.v2) (hn1 : nodupKeys t.v1.v1) (hn2 : nodupKeys t.v2.installs)
    (t' : InstallTracker) (h : t.applyOps ops = some t') :
    recordsAgree t'.v1 t'.v2 ∧ nodupKeys t'.v1.v1 ∧ nodupKeys t'.v2.installs := by
  induction ops generalizing t with
  | nil =>
      unfold InstallTracker.applyOps at h
      rw [List.foldlM_nil] at h
      cases h
      exact ⟨hA, hn1, hn2⟩
  | cons op ops ih =>
      unfold InstallTracker.applyOps at h
      rw [List.foldlM_cons] at h
      cases hop : t.applyOp op
      · rw [hop] at h
        cases h
      · rename_i t1
        rw [hop] at h
        obtain ⟨hA1, hn11, hn21⟩ := applyOp_agree t hA hn1 hn2 op t1 hop
        exact ih t1 hA1 hn11 hn21 h

/-! ## Lemmas about the check_upgrade decision -/

/-- Every duplicate's owner is the current record's owner of that binary. -/
theorem mem_find_duplicates {t : InstallTracker} {dst exes : Finset String}
    {e : String × Option PackageId} (he : e ∈ t.find_duplicates dst exes) :
    e.2 = t.v2.package_for_bin e.1 := by
  unfold InstallTracker.find_duplicates at he
  obtain ⟨name, _, hsome⟩ := List.mem_filterMap.mp he
  by_cases hmem : name ∈ dst
  · rw [if_pos hmem] at hsome
    cases hsome
    rfl
  · rw [if_neg hmem] at hsome
    cases hsome

/-- A tracked owner returned by `package_for_bin` has an entry in the
current record. -/
theorem package_for_bin_lookup (v2 : CrateListingV2) (name : String) (d : PackageId)
    (h : v2.package_for_bin name = some d) :
    ∃ info, lookupPkg v2.installs d = some info := by
  unfold CrateListingV2.package_for_bin at h
  cases hf : v2.installs.find? (fun e => decide (name ∈ e.2.bins))
  · rw [hf] at h
    cases h
  · rename_i e
    rw [hf] at h
    have hed : e.1 = d := by simpa using h
    subst hed
    have he : e ∈ v2.installs := List.mem_of_find?_eq_some hf
    have hc : containsKeyPkg v2.installs e.1 = true :=
      containsKeyPkg_of_mem he (PackageId.pid_eqKey_refl e.1)
    rw [containsKeyPkg_iff_isSome] at hc
    cases hlk : lookupPkg v2.installs e.1
    · rw [hlk] at hc
      cases hc
    · exact ⟨_, rfl⟩

/-- `Iterator::all` with a never-panicking predicate reduces to `List.all`. -/
theorem allUpToDate_eq (f : PackageId → Option Bool) (l : List PackageId)
    (hall : ∀ x ∈ l, (f x).isSome) :
    allUpToDate f l = some (l.all (fun x => (f x).getD false)) := by
  induction l with
  | nil => rfl
  | cons x xs ih =>
      unfold allUpToDate
      cases hfx : f x
      · have := hall x (List.mem_cons_self _ _)
        rw [hfx] at this
        cases this
      · rename_i b
        cases b
        · rw [List.all_cons, hfx]
          simp
        · rw [List.all_cons, hfx]
          simp only [Option.getD_some, Bool.true_and]
          exact ih fun y hy => hall y (List.mem_cons_of_mem _ hy)

/-- The `is_up_to_date` probe succeeds with `true` exactly when all the
recorded data matches the request. -/
theorem is_up_to_date_for_true_iff (v2 : CrateListingV2) (pkg : Package)
    (opts : CompileOptions) (target : String) (exes : Finset String) (d : PackageId)
    (info : InstallInfo) (hinfo : lookupPkg v2.installs d = some info) :
    (is_up_to_date_for v2 pkg opts target exes d = some true ↔
      (d.version = pkg.version ∧
       d.source_id.eqKey pkg.package_id.source_id = true ∧
       (pkg.package_id.source_id.is_git = true →
         d.source_id.precise = pkg.package_id.source_id.precise) ∧
       (info.features = feature_set opts.features ∧
        info.all_features = opts.all_features ∧
        info.no_default_features = opts.no_default_features ∧
        info.profile = opts.requested_profile ∧
        (∀ tgt, info.target = some tgt → tgt = target) ∧
        info.bins = exes))) := by
  unfold is_up_to_date_for
  rw [hinfo]
  unfold InstallInfo.is_up_to_date
  rw [Option.some_inj]
  cases hgit : pkg.package_id.source_id.is_git <;> cases htgt : info.target <;>
    simp [Bool.and_eq_true, beq_iff_eq, Package.version, and_assoc, hgit, htgt]

/-! ### Topological sort lemmas -/

/-- Invariant propagation for a successful run of `topoSortAux`: the output
is a permutation of `emitted ++ pending`, later elements never occur among
the dependencies of earlier ones, and no element depends on itself. -/
theorem topoAux_props (deps : String → List String) :
    ∀ (n : Nat) (emitted pending out : List String),
    topoSortAux deps n emitted pending = some out →
    (emitted ++ pending).Nodup →
    emitted.Pairwise (fun a b => b ∉ deps a) →
    (∀ a ∈ emitted, ∀ d ∈ deps a, d ∈ emitted) →
    (∀ a ∈ emitted, a ∉ deps a) →
    out.Perm (emitted ++ pending) ∧ out.Pairwise (fun a b => b ∉ deps a) ∧
      (∀ a ∈ out, a ∉ deps a) := by
  intro n
  induction n with
  | zero =>
      intro emitted pending out h hnd hpw hcl hself
      unfold topoSortAux at h
      cases hp : pending.isEmpty
      · rw [hp] at h
        cases h
      · rw [hp] at h
        cases h
        rw [List.isEmpty_iff] at hp
        subst hp
        exact ⟨by simp, hpw, hself⟩
  | succ n ih =>
      intro emitted pending out h hnd hpw hcl hself
      unfold topoSortAux at h
      cases hf : pending.find? (fun x => (deps x).all (fun d => emitted.contains d))
      · rw [hf] at h
        cases hp : pending.isEmpty
        · rw [hp] at h
          cases h
        · rw [hp] at h
          cases h
          rw [List.isEmpty_iff] at hp
          subst hp
          exact ⟨by simp, hpw, hself⟩
      · rename_i x
        rw [hf] at h
        have h' : topoSortAux deps n (emitted ++ [x]) (pending.erase x) = some out := h
        have hx : x ∈ pending := List.mem_of_find?_eq_some hf
        have hready : ∀ d ∈ deps x, d ∈ emitted := by
          have h0 := List.find?_some hf
          simp at h0
          exact h0
        have hperm : (emitted ++ pending).Perm ((emitted ++ [x]) ++ pending.erase x) := by
          rw [List.append_assoc, List.singleton_append]
          exact List.Perm.append_left emitted (List.perm_cons_erase hx)
        have hxe : x ∉ emitted := by
          intro hxe
          have := (List.nodup_append.mp hnd).2.2
          exact this hxe hx
        obtain ⟨hperm', hpw', hself'⟩ := ih (emitted ++ [x]) (pending.erase x) out h'
          (hperm.nodup hnd)
          (by
            rw [List.pairwise_append]
            refine ⟨hpw, List.pairwise_singleton _ _, ?_⟩
            intro a ha b hb
            rw [List.mem_singleton] at hb
            subst hb
            intro hbdep
            exact hxe (hcl a ha b hbdep))
          (by
            intro a ha d hd
            rcases List.mem_append.mp ha with ha | ha
            · exact List.mem_append_left _ (hcl a ha d hd)
            · rw [List.mem_singleton] at ha
              subst ha
              exact List.mem_append_left _ (hready d hd))
          (by
            intro a ha
            rcases List.mem_append.mp ha with ha | ha
            · exact hself a ha
            · rw [List.mem_singleton] at ha
              subst ha
              intro hcon
              exact hxe (hready a hcon))
        exact ⟨hperm'.trans hperm.symm, hpw', hself'⟩

/-- Along a walk whose every step follows an unmet dependency, consecutive
positions are chained by the dependency relation. -/
theorem chain_walk (deps : String → List String) (emitted : List String) (x0 : String)
    (hstep : ∀ n, walk deps emitted x0 (n + 1) ∈ deps (walk deps emitted x0 n)) :
    ∀ (m s : Nat), List.Chain (fun a b => b ∈ deps a) (walk deps emitted x0 s)
      ((List.range m).map (fun k => walk deps emitted x0 (s + k + 1))) := by
  intro m
  induction m with
  | zero => intro s; simp
  | succ m ih =>
      intro s
      rw [List.range_succ_eq_map, List.map_cons, List.map_map]
      refine List.Chain.cons ?_ ?_
      · simpa using hstep s
      · have h := ih (s + 1)
        have hfun : ((fun k => walk deps emitted x0 (s + k + 1)) ∘ Nat.succ)
            = (fun k => walk deps emitted x0 (s + 1 + k + 1)) := by
          funext k
          show walk deps emitted x0 (s + (k + 1) + 1) = walk deps emitted x0 (s + 1 + k + 1)
          congr 1
          omega
        rw [hfun]
        exact h

/-- When no pending node is ready and nodes remain, following unmet
dependencies from any pending node yields a dependency cycle inside the
pending set. -/
theorem stuck_cycle (deps : String → List String) (emitted pending : List String)
    (hne : pending ≠ [])
    (hstuck : pending.find? (fun x => (deps x).all (fun d => emitted.contains d)) = none)
    (hclosure : ∀ a ∈ pending, ∀ d ∈ deps a, d ∈ emitted ∨ d ∈ pending) :
    ∃ c, (∀ y ∈ c, y ∈ pending) ∧
      ∃ x l, c = x :: l ∧ List.Chain (fun a b => b ∈ deps a) x (l ++ [x]) := by
  obtain ⟨x0, hx0⟩ := List.exists_mem_of_ne_nil pending hne
  have hstep : ∀ x ∈ pending,
      walkF deps emitted x ∈ deps x ∧ walkF deps emitted x ∈ pending := by
    intro x hx
    have hnotall := List.find?_eq_none.mp hstuck x hx
    have hex : ∃ d ∈ deps x, emitted.contains d = false := by
      by_contra hcon
      push_neg at hcon
      apply hnotall
      rw [List.all_eq_true]
      intro d hd
      cases hcd : emitted.contains d
      · exact absurd hcd (hcon d hd)
      · rfl
    obtain ⟨d, hd, hdc⟩ := hex
    have hfind : ((deps x).find? (fun d => !(emitted.contains d))).isSome := by
      rw [List.find?_isSome]
      exact ⟨d, hd, by rw [hdc]; rfl⟩
    obtain ⟨d0, hd0⟩ := Option.isSome_iff_exists.mp hfind
    have hd0mem : d0 ∈ deps x := List.mem_of_find?_eq_some hd0
    have hd0ne : d0 ∉ emitted := by
      have := List.find?_some hd0
      simpa using this
    have hwf : walkF deps emitted x = d0 := by
      unfold walkF
      rw [hd0]
      rfl
    rw [hwf]
    refine ⟨hd0mem, ?_⟩
    rcases hclosure x hx d0 hd0mem with h | h
    · exact absurd h hd0ne
    · exact h
  have hwmem : ∀ n, walk deps emitted x0 n ∈ pending := by
    intro n
    induction n with
    | zero => exact hx0
    | succ n ih => exact (hstep _ ih).2
  have hwdep : ∀ n, walk deps emitted x0 (n + 1) ∈ deps (walk deps emitted x0 n) :=
    fun n => (hstep _ (hwmem n)).1
  have key : ∀ i j : Nat, i < j → walk deps emitted x0 i = walk deps emitted x0 j →
      ∃ c, (∀ y ∈ c, y ∈ pending) ∧
        ∃ x l, c = x :: l ∧ List.Chain (fun a b => b ∈ deps a) x (l ++ [x]) := by
    intro i j hlt heq
    refine ⟨walk deps emitted x0 i ::
      (List.range (j - i - 1)).map (fun k => walk deps emitted x0 (i + k + 1)), ?_, ?_⟩
    · intro y hy
      rcases List.mem_cons.mp hy with hy | hy
      · rw [hy]
        exact hwmem i
      · obtain ⟨k, _, hk⟩ := List.mem_map.mp hy
        rw [← hk]
        exact hwmem _
    · refine ⟨_, _, rfl, ?_⟩
      have hchain := chain_walk deps emitted x0 hwdep (j - i) i
      have hrw : (List.range (j - i - 1)).map (fun k => walk deps emitted x0 (i + k + 1))
            ++ [walk deps emitted x0 i]
          = (List.range (j - i)).map (fun k => walk deps emitted x0 (i + k + 1)) := by
        have h1 : j - i = (j - i - 1) + 1 := by omega
        rw [h1, List.range_succ, List.map_append, List.map_singleton]
        congr 2
        rw [heq]
        congr 1
        omega
      rw [hrw]
      exact hchain
  have hcard : pending.toFinset.card < (Finset.range (pending.length + 1)).card := by
    rw [Finset.card_range]
    exact Nat.lt_succ_of_le (List.toFinset_card_le pending)
  obtain ⟨i, _, j, _, hij, heq⟩ :=
    Finset.exists_ne_map_eq_of_card_lt_of_maps_to hcard
      (fun n _ => List.mem_toFinset.mpr (hwmem n))
  rcases Nat.lt_trichotomy i j with hlt | heqij | hgt
  · exact key i j hlt heq
  · exact absurd heqij hij
  · exact key j i hgt heq.symm

/-- A run of `topoSortAux` with fuel equal to the number of pending nodes
that returns `none` exposes a dependency cycle inside the pending set. -/
theorem topoAux_none_cycle (deps : String → List String) :
    ∀ (n : Nat) (emitted pending : List String),
    n = pending.length →
    (∀ a ∈ pending, ∀ d ∈ deps a, d ∈ emitted ∨ d ∈ pending) →
    topoSortAux deps n emitted pending = none →
    ∃ c, (∀ y ∈ c, y ∈ pending) ∧
      ∃ x l, c = x :: l ∧ List.Chain (fun a b => b ∈ deps a) x (l ++ [x]) := by
  intro n
  induction n with
  | zero =>
      intro emitted pending hlen hcl h
      cases pending with
      | nil =>
          unfold topoSortAux at h
          simp at h
      | cons a l => simp at hlen
  | succ n ih =>
      intro emitted pending hlen hcl h
      unfold topoSortAux at h
      cases hf : pending.find? (fun x => (deps x).all (fun d => emitted.contains d)) with
      | none =>
          have hne : pending ≠ [] := by
            intro hemp
            rw [hemp] at hlen
            simp at hlen
          exact stuck_cycle deps emitted pending hne hf hcl
      | some x =>
          rw [hf] at h
          have h' : topoSortAux deps n (emitted ++ [x]) (pending.erase x) = none := h
          have hx : x ∈ pending := List.mem_of_find?_eq_some hf
          have hlen' : n = (pending.erase x).length := by
            rw [List.length_erase_of_mem hx]
            omega
          have hcl' : ∀ a ∈ pending.erase x, ∀ d ∈ deps a,
              d ∈ emitted ++ [x] ∨ d ∈ pending.erase x := by
            intro a ha d hd
            have ha' : a ∈ pending := List.mem_of_mem_erase ha
            rcases hcl a ha' d hd with h1 | h1
            · exact Or.inl (List.mem_append_left _ h1)
            · by_cases hdx : d = x
              · rw [hdx]
                exact Or.inl (List.mem_append_right _ (List.mem_singleton.mpr rfl))
              · exact Or.inr ((List.mem_erase_of_ne hdx).mpr h1)
          obtain ⟨c, hc1, hc2⟩ := ih (emitted ++ [x]) (pending.erase x) hlen' hcl' h'
          exact ⟨c, fun y hy => List.mem_of_mem_erase (hc1 y hy), hc2⟩

/-- In an output of the sort, a dependency always sits at a strictly
earlier position than its dependent. -/
theorem edge_pos_lt (out : List String) (deps : String → List String)
    (hpw : out.Pairwise (fun a b => b ∉ deps a))
    (hself : ∀ a ∈ out, a ∉ deps a)
    (a b : String) (ha : a ∈ out) (hb : b ∈ out) (hdep : b ∈ deps a) :
    out.indexOf b < out.indexOf a := by
  have hia : out.indexOf a < out.length := List.indexOf_lt_length.mpr ha
  have hib : out.indexOf b < out.length := List.indexOf_lt_length.mpr hb
  have hga : out[out.indexOf a] = a := List.getElem_indexOf hia
  have hgb : out[out.indexOf b] = b := List.getElem_indexOf hib
  have hne : out.indexOf a ≠ out.indexOf b := by
    intro hcon
    have hab : a = b := (List.indexOf_inj ha hb).mp hcon
    rw [hab] at hdep
    exact hself b hb hdep
  rcases Nat.lt_or_ge (out.indexOf a) (out.indexOf b) with hlt | hge
  · exfalso
    have hnd := List.pairwise_iff_getElem.mp hpw (out.indexOf a) (out.indexOf b) hia hib hlt
    rw [hga, hgb] at hnd
    exact hnd hdep
  · omega

/-- Positions descend strictly along any dependency chain through the
output of the sort; in particular a chain cannot return to its start. -/
theorem chain_pos_lt (out : List String) (deps : String → List String)
    (hpw : out.Pairwise (fun a b => b ∉ deps a))
    (hself : ∀ a ∈ out, a ∉ deps a) :
    ∀ (l : List String) (x y : String), x ∈ out → (∀ z ∈ l, z ∈ out) → y ∈ out →
    List.Chain (fun a b => b ∈ deps a) x (l ++ [y]) →
    out.indexOf y < out.indexOf x := by
  intro l
  induction l with
  | nil =>
      intro x y hx _ hy hch
      rw [List.nil_append] at hch
      exact edge_pos_lt out deps hpw hself x y hx hy (List.rel_of_chain_cons hch)
  | cons a l ih =>
      intro x y hx hl hy hch
      rw [List.cons_append, List.chain_cons] at hch
      obtain ⟨hdep, hch'⟩ := hch
      have ha : a ∈ out := hl a (List.mem_cons_self a l)
      have h1 : out.indexOf a < out.indexOf x := edge_pos_lt out deps hpw hself x a hx ha hdep
      have h2 : out.indexOf y < out.indexOf a :=
        ih a y ha (fun z hz => hl z (List.mem_cons_of_mem a hz)) hy hch'
      omega

/-- `PackageSet.sort` unfolded to its match on the name sort. -/
theorem sort_eq (s : PackageSet) :
    s.sort = match topoSort (s.packages.map Package.name) s.depNames with
      | none => none
      | some order => (order.mapM s.get).map PackageSet.mk := rfl

/-- When every requested name is the name of a package of the set, the
lookup pass of `PackageSet.sort` succeeds and returns packages of the set
carrying exactly the requested names in order. -/
theorem mapM_get_some (s : PackageSet) :
    ∀ (order : List String), (∀ n ∈ order, ∃ p ∈ s.packages, p.name = n) →
    ∃ ps : List Package, order.mapM s.get = some ps ∧ ps.map Package.name = order ∧
      ∀ p ∈ ps, p ∈ s.packages := by
  intro order
  induction order with
  | nil =>
      intro _
      exact ⟨[], rfl, rfl, by intro p hp; cases hp⟩
  | cons n order ih =>
      intro hall
      obtain ⟨p, hp, hpn⟩ := hall n (List.mem_cons_self n order)
      have hfind : (s.packages.find? (fun q => q.name == n)).isSome := by
        rw [List.find?_isSome]
        exact ⟨p, hp, by rw [hpn]; exact beq_self_eq_true n⟩
      obtain ⟨q, hq⟩ := Option.isSome_iff_exists.mp hfind
      have hqmem : q ∈ s.packages := List.mem_of_find?_eq_some hq
      have hqn : q.name = n := by
        have := List.find?_some hq
        simpa using this
      obtain ⟨ps, hps, hnames, hmem⟩ := ih (fun m hm => hall m (List.mem_cons_of_mem n hm))
      refine ⟨q :: ps, ?_, ?_, ?_⟩
      · rw [← List.mapM'_eq_mapM]
        show (s.get n).bind (fun b => (List.mapM' s.get order).bind (fun bs => some (b :: bs)))
            = some (q :: ps)
        rw [List.mapM'_eq_mapM, hps]
        show (s.get n).bind (fun b => some (b :: ps)) = some (q :: ps)
        rw [show s.get n = some q from hq]
        rfl
      · rw [List.map_cons, hnames, hqn]
      · intro r hr
        rcases List.mem_cons.mp hr with hr | hr
        · rw [hr]
          exact hqmem
        · exact hmem r hr

/-- When every dependency of a package of the set is the name of a package
of the set, the dependency-name graph of `PackageSet.sort` is closed over
the set's names. -/
theorem depNames_closed (s : PackageSet)
    (hcl : ∀ p ∈ s.packages, ∀ d ∈ p.dependencies,
      ∃ q ∈ s.packages, q.name = d.package_name) :
    ∀ a ∈ s.packages.map Package.name, ∀ d ∈ s.depNames a,
      d ∈ s.packages.map Package.name := by
  intro a _ d hd
  unfold PackageSet.depNames at hd
  cases hf : s.packages.find? (fun p => p.name == a) with
  | none =>
      rw [hf] at hd
      have hd' : d ∈ ([] : List String) := hd
      cases hd'
  | some q =>
      rw [hf] at hd
      have hd' : d ∈ q.dependencies.map (fun dd => dd.package_name) := hd
      have hq : q ∈ s.packages := List.mem_of_find?_eq_some hf
      obtain ⟨dep, hdep, hdeq⟩ := List.mem_map.mp hd'
      obtain ⟨r, hr, hrn⟩ := hcl q hq dep hdep
      exact List.mem_map.mpr ⟨r, hr, by rw [hrn, hdeq]⟩

/-! ## Claims -/

/-- C4: starting from records where no binary name is owned by two
identities, both `mark_installed` and (successful) `remove` preserve that
property in both records; in particular `mark_installed` strips the
installed binary names from every identity other than the candidate's. -/
theorem claim_C4 (t : InstallTracker)
    (h1 : uniqueBinOwners1 t.v1.v1) (h2 : uniqueBinOwners2 t.v2.installs)
    (hk1 : nodupKeys t.v1.v1) (hk2 : nodupKeys t.v2.installs) :
    (∀ pkg bins version_req opts target rustc,
      uniqueBinOwners1 (t.mark_installed pkg bins version_req opts target rustc).v1.v1 ∧
      uniqueBinOwners2 (t.mark_installed pkg bins version_req opts target rustc).v2.installs ∧
      (∀ e ∈ (t.mark_installed pkg bins version_req opts target rustc).v1.v1,
        e.1.eqKey pkg.package_id = false → e.2 ∩ bins = ∅) ∧
      (∀ e ∈ (t.mark_installed pkg bins version_req opts target rustc).v2.installs,
        e.1.eqKey pkg.package_id = false → e.2.bins ∩ bins = ∅)) ∧
    (∀ pkg_id bins t', t.remove pkg_id bins = some t' →
      uniqueBinOwners1 t'.v1.v1 ∧ uniqueBinOwners2 t'.v2.installs) := by
  constructor
  · intro pkg bins version_req opts target rustc
    obtain ⟨hu1, hd1⟩ := mark1_uniq t.v1 pkg bins h1 hk1
    obtain ⟨hu2, hd2⟩ := mark2_uniq t.v2 pkg bins version_req opts target rustc h2 hk2
    exact ⟨hu1, hu2, hd1, hd2⟩
  · intro pkg_id bins t' ht'
    unfold InstallTracker.remove at ht'
    cases hv1 : t.v1.remove pkg_id bins
    · rw [hv1] at ht'
      cases ht'
    · rename_i r1
      rw [hv1] at ht'
      cases hv2 : t.v2.remove pkg_id bins
      · rw [hv2] at ht'
        cases ht'
      · rename_i r2
        rw [hv2] at ht'
        cases ht'
        exact ⟨removeV1_uniq t.v1 pkg_id bins h1 hk1 r1 hv1,
          removeV2_uniq t.v2 pkg_id bins h2 hk2 r2 hv2⟩

/-- C4 witness: transferring binary `foo` from `p` to `q` keeps ownership
unique in both records. -/
theorem claim_C4_witness :
    uniqueBinOwners1 (trkP.mark_installed pkgQ {"foo"} none optsX "host" "rustc").v1.v1 ∧
    uniqueBinOwners2 (trkP.mark_installed pkgQ {"foo"} none optsX "host" "rustc").v2.installs := by
  obtain ⟨hu1, hu2, _, _⟩ :=
    (claim_C4 trkP (by unfold uniqueBinOwners1 trkP; simp)
      (by unfold uniqueBinOwners2 trkP; simp)
      (by unfold nodupKeys trkP; simp)
      (by unfold nodupKeys trkP; simp)).1 pkgQ {"foo"} none optsX "host" "rustc"
  exact ⟨hu1, hu2⟩

/-- C5: the reconcile step is idempotent — applying `sync_v1` twice against
the same legacy record yields exactly the same current record as applying
it once. -/
theorem claim_C5 (v1 : CrateListingV1) (v2 : CrateListingV2)
    (h1 : nodupKeys v1.v1) (h2 : nodupKeys v2.installs) :
    (v2.sync_v1 v1).sync_v1 v1 = v2.sync_v1 v1 := by
  have hs2 := nodupKeys_sync v2 v1 h1 h2
  have hinst : ((v2.sync_v1 v1).sync_v1 v1).installs = (v2.sync_v1 v1).installs := by
    rw [sync_installs_eq _ v1 h1 hs2]
    have hall : ∀ e ∈ (v2.sync_v1 v1).installs, containsKeyPkg v1.v1 e.1 = true := by
      intro e he
      rw [sync_installs_eq v2 v1 h1 h2] at he
      rcases List.mem_append.mp he with he | he
      · obtain ⟨x, hx, rfl⟩ := List.mem_map.mp he
        show containsKeyPkg v1.v1 x.1 = true
        exact (List.mem_filter.mp hx).2
      · obtain ⟨kb, hkb, rfl⟩ := List.mem_map.mp he
        show containsKeyPkg v1.v1 kb.1 = true
        unfold containsKeyPkg
        rw [List.any_eq_true]
        exact ⟨kb, List.mem_of_mem_filter hkb, PackageId.pid_eqKey_refl _⟩
    rw [List.filter_eq_self.mpr hall]
    have hnil : v1.v1.filter (fun kb => !(containsKeyPkg (v2.sync_v1 v1).installs kb.1)) = [] := by
      rw [List.filter_eq_nil_iff]
      intro kb hkb
      rw [sync_contains_of_v1 v2 v1 h1 h2 kb hkb]
      simp
    rw [hnil, List.map_nil, List.append_nil]
    rw [List.map_congr_left (modifAt_sync_id v2 v1 h1 h2), List.map_id']
  have hother : ((v2.sync_v1 v1).sync_v1 v1).other = (v2.sync_v1 v1).other := rfl
  cases hsync : v2.sync_v1 v1 with
  | mk installs other =>
      rw [hsync] at hinst hother
      cases hsync2 : CrateListingV2.sync_v1 ⟨installs, other⟩ v1 with
      | mk installs2 other2 =>
          rw [hsync2] at hinst hother
          simp at hinst hother
          rw [hinst, hother]

/-- C5 witness: idempotence at a concrete pair of records in which the
legacy record replaces the current one's contents. -/
theorem claim_C5_witness :
    (CrateListingV2.sync_v1
        (CrateListingV2.sync_v1 ⟨[(pidP, infoP)], []⟩ ⟨[(pidQ, {"bar"})]⟩)
        ⟨[(pidQ, {"bar"})]⟩)
      = CrateListingV2.sync_v1 ⟨[(pidP, infoP)], []⟩ ⟨[(pidQ, {"bar"})]⟩ :=
  claim_C5 ⟨[(pidQ, {"bar"})]⟩ ⟨[(pidP, infoP)], []⟩
    (by unfold nodupKeys; simp) (by unfold nodupKeys; simp)

/-- C7: when the identity is tracked in both records, `remove` deletes the
given binary names from that identity's entry in both records and drops an
entry entirely once its binary set becomes empty, leaving every other
identity untouched; when the identity is missing from either record, the
call aborts (models the panic) rather than returning a recoverable
outcome. -/
theorem claim_C7 (t : InstallTracker) (pkg_id : PackageId) (bins : Finset String) :
    (∀ s info, lookupPkg t.v1.v1 pkg_id = some s →
        lookupPkg t.v2.installs pkg_id = some info →
        ∃ t', t.remove pkg_id bins = some t' ∧
          (∀ id, lookupPkg t'.v1.v1 id =
            if id.eqKey pkg_id then (if s \ bins = ∅ then none else some (s \ bins))
            else lookupPkg t.v1.v1 id) ∧
          (∀ id, lookupPkg t'.v2.installs id =
            if id.eqKey pkg_id then
              (if info.bins \ bins = ∅ then none
               else some { info with bins := info.bins \ bins })
            else lookupPkg t.v2.installs id)) ∧
    ((lookupPkg t.v1.v1 pkg_id = none ∨ lookupPkg t.v2.installs pkg_id = none) →
      t.remove pkg_id bins = none) := by
  constructor
  · intro s info hs hinfo
    obtain ⟨r1, hr1, hl1⟩ := removeV1_lookup t.v1 pkg_id bins s hs
    obtain ⟨r2, hr2, hl2⟩ := removeV2_lookup t.v2 pkg_id bins info hinfo
    refine ⟨⟨r1, r2⟩, ?_, hl1, hl2⟩
    unfold InstallTracker.remove
    rw [hr1, hr2]
  · intro h
    unfold InstallTracker.remove
    rcases h with h | h
    · rw [removeV1_none t.v1 pkg_id bins h]
    · cases hv1 : t.v1.remove pkg_id bins
      · rfl
      · rw [removeV2_none t.v2 pkg_id bins h]

/-- C7 witness: removing `p`'s only binary `foo` deletes `p`'s entry from
both records. -/
theorem claim_C7_witness :
    ∃ t', trkP.remove pidP {"foo"} = some t' ∧
      lookupPkg t'.v1.v1 pidP = none ∧ lookupPkg t'.v2.installs pidP = none := by
  obtain ⟨t', ht', hl1, hl2⟩ :=
    (claim_C7 trkP pidP {"foo"}).1 {"foo"} infoP (by decide) (by decide)
  refine ⟨t', ht', ?_, ?_⟩
  · rw [hl1 pidP, if_pos (PackageId.pid_eqKey_refl pidP), if_pos (by decide)]
  · rw [hl2 pidP, if_pos (PackageId.pid_eqKey_refl pidP), if_pos (by decide)]

/-- C3: after the load-time reconcile and any successful sequence of
mark_installed / remove mutations, the legacy and current records agree:
they track exactly the same identities, and every tracked identity's
binary-name set is the same in both. -/
theorem claim_C3 (v1 : CrateListingV1) (v2 : CrateListingV2)
    (h1 : nodupKeys v1.v1) (h2 : nodupKeys v2.installs)
    (ops : List Op) (t' : InstallTracker)
    (h : (InstallTracker.loadSync v1 v2).applyOps ops = some t') :
    recordsAgree t'.v1 t'.v2 ∧
    (∀ id, containsKeyPkg t'.v1.v1 id = containsKeyPkg t'.v2.installs id) := by
  have h0A : recordsAgree (InstallTracker.loadSync v1 v2).v1
      (InstallTracker.loadSync v1 v2).v2 := sync_agree v1 v2 h1 h2
  have h0n2 : nodupKeys (InstallTracker.loadSync v1 v2).v2.installs :=
    nodupKeys_sync v2 v1 h1 h2
  obtain ⟨hA, -, -⟩ := applyOps_agree ops _ h0A h1 h0n2 t' h
  refine ⟨hA, fun id => ?_⟩
  rw [containsKeyPkg_iff_isSome, containsKeyPkg_iff_isSome, hA id]
  cases lookupPkg t'.v2.installs id <;> rfl

/-- C3 witness: reconciling a one-entry legacy record into an empty current
one and then transferring the binary to package `q` leaves the records in
agreement. -/
theorem claim_C3_witness :
    recordsAgree
      ((InstallTracker.loadSync ⟨[(pidP, {"foo"})]⟩ ⟨[], []⟩).mark_installed
        pkgQ {"foo"} none optsX "host" "rustc").v1
      ((InstallTracker.loadSync ⟨[(pidP, {"foo"})]⟩ ⟨[], []⟩).mark_installed
        pkgQ {"foo"} none optsX "host" "rustc").v2 :=
  (claim_C3 ⟨[(pidP, {"foo"})]⟩ ⟨[], []⟩ (by unfold nodupKeys; simp)
    (by unfold nodupKeys; simp)
    [Op.mark pkgQ {"foo"} none optsX "host" "rustc"] _ rfl).1

/-- C1: the full `check_upgrade` decision.  With `force` the result is
Dirty; with no duplicates the result is Dirty; otherwise, when every
duplicate is owned by a tracked identity with the candidate's package name:
a local-path candidate is always Dirty, and a non-path candidate is Fresh
exactly when, for every duplicate owner, the version and origin are
identical, a git candidate's precise revision matches, and the recorded
feature set, flags, profile, (known) target, and binary set all match the
request; any mismatch yields Dirty. -/
theorem claim_C1 (t : InstallTracker) (dst : Finset String) (pkg : Package)
    (opts : CompileOptions) (target : String) :
    (t.check_upgrade dst pkg true opts target
      = some (.ok .dirty (t.find_duplicates dst (exe_names pkg opts.filter)))) ∧
    (t.find_duplicates dst (exe_names pkg opts.filter) = [] →
      t.check_upgrade dst pkg false opts target = some (.ok .dirty [])) ∧
    (t.find_duplicates dst (exe_names pkg opts.filter) ≠ [] →
      (∀ e ∈ t.find_duplicates dst (exe_names pkg opts.filter),
        ∃ d, e.2 = some d ∧ d.name = pkg.name) →
      (pkg.package_id.source_id.is_path = true →
        t.check_upgrade dst pkg false opts target
          = some (.ok .dirty (t.find_duplicates dst (exe_names pkg opts.filter)))) ∧
      (pkg.package_id.source_id.is_path = false →
        ∃ f, t.check_upgrade dst pkg false opts target
            = some (.ok f (t.find_duplicates dst (exe_names pkg opts.filter))) ∧
          (f = .fresh ↔
            ∀ e ∈ t.find_duplicates dst (exe_names pkg opts.filter), ∀ d, e.2 = some d →
              d.version = pkg.version ∧
              d.source_id.eqKey pkg.package_id.source_id = true ∧
              (pkg.package_id.source_id.is_git = true →
                d.source_id.precise = pkg.package_id.source_id.precise) ∧
              ∀ info, lookupPkg t.v2.installs d = some info →
                info.features = feature_set opts.features ∧
                info.all_features = opts.all_features ∧
                info.no_default_features = opts.no_default_features ∧
                info.profile = opts.requested_profile ∧
                (∀ tgt, info.target = some tgt → tgt = target) ∧
                info.bins = exe_names pkg opts.filter))) := by
  refine ⟨?_, ?_, ?_⟩
  · rw [check_upgrade_eq]
    simp
  · intro hnil
    rw [check_upgrade_eq, hnil]
    simp
  · intro hne hOwned
    have hne' : (t.find_duplicates dst (exe_names pkg opts.filter)).isEmpty = false := by
      cases hl : t.find_duplicates dst (exe_names pkg opts.filter)
      · exact absurd hl hne
      · rfl
    -- the filterMap keeps every duplicate
    have hg : ∀ e ∈ t.find_duplicates dst (exe_names pkg opts.filter),
        ∃ d, e.2 = some d ∧ d.name = pkg.name ∧
          (match e.2 with
            | some dupe_pkg_id =>
                if dupe_pkg_id.name == pkg.name then some dupe_pkg_id else none
            | none => none) = some d := by
      intro e he
      obtain ⟨d, hd, hname⟩ := hOwned e he
      refine ⟨d, hd, hname, ?_⟩
      rw [hd]
      simp [hname]
    have hlen : ((t.find_duplicates dst (exe_names pkg opts.filter)).filterMap (fun e =>
        match e.2 with
        | some dupe_pkg_id =>
            if dupe_pkg_id.name == pkg.name then some dupe_pkg_id else none
        | none => none)).length
        = (t.find_duplicates dst (exe_names pkg opts.filter)).length := by
      apply filterMap_length_eq_of_all_some
      intro e he
      obtain ⟨d, _, _, hmatch⟩ := hg e he
      rw [hmatch]
      rfl
    constructor
    · intro hpath
      rw [check_upgrade_eq, hne', if_neg (by simp : ¬((false || false) = true)), if_pos hlen,
        if_pos hpath]
    · intro hpath
      -- every matching duplicate's probe succeeds
      have hmem_matching : ∀ x ∈ ((t.find_duplicates dst (exe_names pkg opts.filter)).filterMap
          (fun e =>
            match e.2 with
            | some dupe_pkg_id =>
                if dupe_pkg_id.name == pkg.name then some dupe_pkg_id else none
            | none => none)),
          ∃ e ∈ t.find_duplicates dst (exe_names pkg opts.filter), e.2 = some x := by
        intro x hx
        obtain ⟨e, he, hmatch⟩ := List.mem_filterMap.mp hx
        refine ⟨e, he, ?_⟩
        cases he2 : e.2
        · rw [he2] at hmatch
          cases hmatch
        · rename_i d
          rw [he2] at hmatch
          have hmatch2 : (if (d.name == pkg.name) = true then some d else none) = some x :=
            hmatch
          by_cases hn : (d.name == pkg.name) = true
          · rw [if_pos hn] at hmatch2
            cases hmatch2
            rfl
          · rw [if_neg hn] at hmatch2
            cases hmatch2
      have hall : ∀ x ∈ ((t.find_duplicates dst (exe_names pkg opts.filter)).filterMap
          (fun e =>
            match e.2 with
            | some dupe_pkg_id =>
                if dupe_pkg_id.name == pkg.name then some dupe_pkg_id else none
            | none => none)),
          (is_up_to_date_for t.v2 pkg opts target (exe_names pkg opts.filter) x).isSome := by
        intro x hx
        obtain ⟨e, he, he2⟩ := hmem_matching x hx
        have hpfb := mem_find_duplicates he
        rw [he2] at hpfb
        obtain ⟨info, hinfo⟩ := package_for_bin_lookup t.v2 e.1 x hpfb.symm
        unfold is_up_to_date_for
        rw [hinfo]
        rfl
      rw [check_upgrade_eq, hne', if_neg (by simp : ¬((false || false) = true)), if_pos hlen,
        if_neg (show ¬(pkg.package_id.source_id.is_path = true) from by simp [hpath])]
      rw [allUpToDate_eq _ _ hall]
      set q := fun x => (is_up_to_date_for t.v2 pkg opts target (exe_names pkg opts.filter)
        x).getD false with hq
      cases hallq : ((t.find_duplicates dst (exe_names pkg opts.filter)).filterMap (fun e =>
          match e.2 with
          | some dupe_pkg_id =>
              if dupe_pkg_id.name == pkg.name then some dupe_pkg_id else none
          | none => none)).all q
      · refine ⟨.dirty, rfl, ?_⟩
        constructor
        · intro hcon
          cases hcon
        · intro hP
          exfalso
          obtain ⟨x, hx, hqx⟩ : ∃ x ∈ (t.find_duplicates dst
              (exe_names pkg opts.filter)).filterMap (fun e =>
                match e.2 with
                | some dupe_pkg_id =>
                    if dupe_pkg_id.name == pkg.name then some dupe_pkg_id else none
                | none => none), q x = false := by
            by_contra hcon
            push_neg at hcon
            have : ((t.find_duplicates dst (exe_names pkg opts.filter)).filterMap (fun e =>
                match e.2 with
                | some dupe_pkg_id =>
                    if dupe_pkg_id.name == pkg.name then some dupe_pkg_id else none
                | none => none)).all q = true := by
              rw [List.all_eq_true]
              intro x hx
              cases hqx : q x
              · exact absurd hqx (hcon x hx)
              · rfl
            rw [hallq] at this
            cases this
          obtain ⟨e, he, he2⟩ := hmem_matching x hx
          have hpfb := mem_find_duplicates he
          rw [he2] at hpfb
          obtain ⟨info, hinfo⟩ := package_for_bin_lookup t.v2 e.1 x hpfb.symm
          obtain ⟨h1, h2, h3, h4⟩ := hP e he x he2
          have htrue := (is_up_to_date_for_true_iff t.v2 pkg opts target
            (exe_names pkg opts.filter) x info hinfo).mpr ⟨h1, h2, h3, h4 info hinfo⟩
          rw [hq] at hqx
          simp only [htrue, Option.getD_some] at hqx
          cases hqx
      · refine ⟨.fresh, rfl, ?_⟩
        constructor
        · intro _
          intro e he d hd
          obtain ⟨d0, hd0, hname0, hmatch⟩ := hg e he
          rw [hd] at hd0
          cases hd0
          have hdmem : d ∈ (t.find_duplicates dst (exe_names pkg opts.filter)).filterMap
              (fun e =>
                match e.2 with
                | some dupe_pkg_id =>
                    if dupe_pkg_id.name == pkg.name then some dupe_pkg_id else none
                | none => none) := List.mem_filterMap.mpr ⟨e, he, hmatch⟩
          rw [List.all_eq_true] at hallq
          have hqd := hallq d hdmem
          have hpfb := mem_find_duplicates he
          rw [hd] at hpfb
          obtain ⟨info, hinfo⟩ := package_for_bin_lookup t.v2 e.1 d hpfb.symm
          have htrue : is_up_to_date_for t.v2 pkg opts target (exe_names pkg opts.filter) d
              = some true := by
            have := hall d hdmem
            cases hfd : is_up_to_date_for t.v2 pkg opts target (exe_names pkg opts.filter) d
            · rw [hfd] at this
              cases this
            · rename_i b
              rw [hq] at hqd
              simp only [hfd, Option.getD_some] at hqd
              rw [hqd]
          have hiff := (is_up_to_date_for_true_iff t.v2 pkg opts target
            (exe_names pkg opts.filter) d info hinfo).mp htrue
          obtain ⟨h1, h2, h3, h4⟩ := hiff
          refine ⟨h1, h2, h3, ?_⟩
          intro info' hinfo'
          rw [hinfo'] at hinfo
          cases hinfo
          exact h4
        · intro _
          rfl

/-- C1 witness: reinstalling `p v1.0.0` with the same feature set, profile,
target and binaries is reported Fresh. -/
theorem claim_C1_witness :
    trkP.check_upgrade {"foo"} pkgP false optsX "host"
      = some (.ok .fresh (trkP.find_duplicates {"foo"} (exe_names pkgP optsX.filter))) := by
  have hfd : trkP.find_duplicates {"foo"} (exe_names pkgP optsX.filter)
      = [("foo", some pidP)] := by
    show trkP.find_duplicates {"foo"} (exe_names pkgP CompileFilter.default) = _
    rw [show exe_names pkgP CompileFilter.default = {"foo"} from by decide]
    unfold InstallTracker.find_duplicates
    rw [Finset.sort_singleton]
    simp [CrateListingV2.package_for_bin, trkP, pidP, infoP]
  have hcond : ∀ e ∈ trkP.find_duplicates {"foo"} (exe_names pkgP optsX.filter),
      ∀ d, e.2 = some d →
        d.version = pkgP.version ∧
        d.source_id.eqKey pkgP.package_id.source_id = true ∧
        (pkgP.package_id.source_id.is_git = true →
          d.source_id.precise = pkgP.package_id.source_id.precise) ∧
        ∀ info, lookupPkg trkP.v2.installs d = some info →
          info.features = feature_set optsX.features ∧
          info.all_features = optsX.all_features ∧
          info.no_default_features = optsX.no_default_features ∧
          info.profile = optsX.requested_profile ∧
          (∀ tgt, info.target = some tgt → tgt = "host") ∧
          info.bins = exe_names pkgP optsX.filter := by
    rw [hfd]
    intro e he d hd
    rcases List.mem_singleton.mp he with rfl
    have hd2 : pidP = d := by simpa using hd
    subst hd2
    refine ⟨rfl, by decide, by decide, ?_⟩
    intro info hinfo
    have hinfo2 : info = infoP := by
      rw [show lookupPkg trkP.v2.installs pidP = some infoP from by decide] at hinfo
      exact (Option.some.inj hinfo).symm
    subst hinfo2
    refine ⟨by decide, rfl, rfl, rfl, ?_, by decide⟩
    intro tgt htgt
    have : some "host" = some tgt := htgt
    exact (Option.some.inj this).symm
  obtain ⟨f, heq, hiff⟩ := ((claim_C1 trkP {"foo"} pkgP optsX "host").2.2
    (by rw [hfd]; simp)
    (by
      rw [hfd]
      intro e he
      rcases List.mem_singleton.mp he with rfl
      exact ⟨pidP, rfl, rfl⟩)).2 (by decide)
  rw [heq, hiff.mpr hcond]

/-- C2: with `force = false`, if any duplicate executable is owned by a
tracked identity whose package name differs from the candidate's,
`check_upgrade` fails with the conflict error (never a freshness outcome);
the message contains, for every duplicate, a line naming the binary and —
when the owner is known — its owning package, and ends by instructing that
`--force` is required. -/
theorem claim_C2 (t : InstallTracker) (dst : Finset String) (pkg : Package)
    (opts : CompileOptions) (target : String)
    (h : ∃ e ∈ t.find_duplicates dst (exe_names pkg opts.filter),
        ∃ d, e.2 = some d ∧ d.name ≠ pkg.name) :
    t.check_upgrade dst pkg false opts target
      = some (.conflict (conflictMessage (t.find_duplicates dst (exe_names pkg opts.filter)))) ∧
    (∀ e ∈ t.find_duplicates dst (exe_names pkg opts.filter),
      ("binary `" ++ e.1 ++ "` already exists in destination").data
        <:+: (conflictMessage (t.find_duplicates dst (exe_names pkg opts.filter))).data ∧
      ∀ d, e.2 = some d →
        (" as part of `" ++ d.display ++ "`").data
          <:+: (conflictMessage (t.find_duplicates dst (exe_names pkg opts.filter))).data) ∧
    "Add --force to overwrite".data
      <:+ (conflictMessage (t.find_duplicates dst (exe_names pkg opts.filter))).data := by
  obtain ⟨e0, he0, d0, hd0, hdn0⟩ := h
  refine ⟨check_upgrade_conflict t dst pkg opts target ⟨e0, he0, Or.inr ⟨d0, hd0, hdn0⟩⟩, ?_, ?_⟩
  · intro e he
    have hline : (dupLine e.1 e.2).data
        <:+: (conflictMessage (t.find_duplicates dst (exe_names pkg opts.filter))).data := by
      rw [conflictMessage_data]
      exact (List.infix_of_mem_flatten
        (List.mem_map_of_mem (fun e => (dupLine e.1 e.2).data) he)).trans
        (List.prefix_append _ _).isInfix
    obtain ⟨hpre, hpart⟩ := dupLine_parts e.1 e.2
    exact ⟨hpre.isInfix.trans hline, fun d hd => (hpart d hd).trans hline⟩
  · rw [conflictMessage_data]
    exact List.suffix_append _ _

/-- C2 witness: installing package `q` whose binary `foo` is already owned
by the differently-named tracked package `p` yields the conflict error. -/
theorem claim_C2_witness :
    trkP.check_upgrade {"foo"} pkgQ false optsX "host"
      = some (.conflict (conflictMessage
          (trkP.find_duplicates {"foo"} (exe_names pkgQ optsX.filter)))) := by
  have hfd : trkP.find_duplicates {"foo"} (exe_names pkgQ optsX.filter)
      = [("foo", some pidP)] := by
    show trkP.find_duplicates {"foo"} (exe_names pkgQ CompileFilter.default) = _
    rw [show exe_names pkgQ CompileFilter.default = {"foo"} from by decide]
    unfold InstallTracker.find_duplicates
    rw [Finset.sort_singleton]
    simp [CrateListingV2.package_for_bin, trkP, pidP, infoP]
  exact (claim_C2 trkP {"foo"} pkgQ optsX "host"
    ⟨("foo", some pidP), by rw [hfd]; exact List.mem_singleton_self _,
      pidP, rfl, by decide⟩).1

/-- C10: with `force = false`, if some computed executable name exists in
the destination but is untracked (its owner lookup yields `none`),
`check_upgrade` fails with the conflict error rather than returning any
freshness outcome — even if every other duplicate is owned by the
candidate's own package name. -/
theorem claim_C10 (t : InstallTracker) (dst : Finset String) (pkg : Package)
    (opts : CompileOptions) (target : String)
    (h : ∃ e ∈ t.find_duplicates dst (exe_names pkg opts.filter), e.2 = none) :
    t.check_upgrade dst pkg false opts target
      = some (.conflict (conflictMessage (t.find_duplicates dst (exe_names pkg opts.filter)))) := by
  obtain ⟨e, he, hnone⟩ := h
  exact check_upgrade_conflict t dst pkg opts target ⟨e, he, Or.inl hnone⟩

/-- C10 witness: an untracked `foo` file in the destination conflicts even
though neither record tracks any package. -/
theorem claim_C10_witness :
    InstallTracker.check_upgrade ⟨⟨[]⟩, ⟨[], []⟩⟩ {"foo"} pkgQ false optsX "host"
      = some (.conflict (conflictMessage
          (InstallTracker.find_duplicates ⟨⟨[]⟩, ⟨[], []⟩⟩ {"foo"}
            (exe_names pkgQ optsX.filter)))) := by
  have hfd : InstallTracker.find_duplicates ⟨⟨[]⟩, ⟨[], []⟩⟩ {"foo"}
      (exe_names pkgQ optsX.filter) = [("foo", none)] := by
    show InstallTracker.find_duplicates _ {"foo"} (exe_names pkgQ CompileFilter.default) = _
    rw [show exe_names pkgQ CompileFilter.default = {"foo"} from by decide]
    unfold InstallTracker.find_duplicates
    rw [Finset.sort_singleton]
    simp [CrateListingV2.package_for_bin]
  exact claim_C10 _ _ _ _ "host"
    ⟨("foo", none), by rw [hfd]; exact List.mem_singleton_self _, rfl⟩

/-- C8: when at least one candidate matches the dependency spec,
`select_dep_pkg` selects the maximum package identity among the candidates
(the later candidate winning ties) and returns its download; when none
matches, it fails with the yank error when the best-guess identity probes
as yanked and with the not-found error otherwise, and those messages name
the package, the source, and (for not-found) the version requirement. -/
theorem claim_C8 (source : Source) (dep : Dependency) :
    (source.query_vec dep ≠ [] →
      ∃ m, m ∈ (source.query_vec dep).map (·.package_id) ∧
        (∀ x ∈ (source.query_vec dep).map (·.package_id), x.le m) ∧
        select_dep_pkg source dep = source.download_now m) ∧
    (source.query_vec dep = [] → probeYanked source dep = true →
      select_dep_pkg source dep = .error (yankedMsg dep source.source_id) ∧
      (yankedMsg dep source.source_id).data =
        "cannot install package `".data ++ dep.package_name.data ++
          "`, it has been yanked from ".data ++ source.source_id.display.data) ∧
    (source.query_vec dep = [] → probeYanked source dep = false →
      select_dep_pkg source dep = .error (notFoundMsg dep source.source_id) ∧
      (notFoundMsg dep source.source_id).data =
        "could not find `".data ++ dep.package_name.data ++ "` in ".data ++
          source.source_id.display.data ++ " with version `".data ++
          dep.version_req.display.data ++ "`".data) := by
  refine ⟨?_, ?_, ?_⟩
  · intro hne
    have hne' : (source.query_vec dep).map (·.package_id) ≠ [] := by
      intro h
      exact hne (List.map_eq_nil_iff.mp h)
    obtain ⟨m, hm, hmem, hall⟩ := iterMax_spec _ hne'
    refine ⟨m, hmem, hall, ?_⟩
    unfold select_dep_pkg
    rw [hm]
  · intro hq hy
    constructor
    · unfold select_dep_pkg
      rw [hq]
      show (match iterMax [] with
        | some pkgid => source.download_now pkgid
        | none => if probeYanked source dep then Except.error (yankedMsg dep source.source_id)
            else Except.error (notFoundMsg dep source.source_id)) = _
      rw [show iterMax [] = none from rfl]
      rw [hy]
      simp
    · simp [yankedMsg, String.data_append, List.append_assoc]
  · intro hq hy
    constructor
    · unfold select_dep_pkg
      rw [hq]
      show (match iterMax [] with
        | some pkgid => source.download_now pkgid
        | none => if probeYanked source dep then Except.error (yankedMsg dep source.source_id)
            else Except.error (notFoundMsg dep source.source_id)) = _
      rw [show iterMax [] = none from rfl]
      rw [hy]
      simp
    · simp [notFoundMsg, String.data_append, List.append_assoc]

/-- C8 witness: a source with one candidate downloads that candidate, and a
source with no candidates and a yanked best guess produces the yank
error. -/
theorem claim_C8_witness :
    (Cargo.select_dep_pkg
        ⟨⟨SourceKind.registry, "reg", none⟩,
          fun _ => [⟨⟨"foo", ⟨2, 0, 0⟩, ⟨SourceKind.registry, "reg", none⟩⟩⟩],
          fun pid => Except.ok ⟨pid, [], [], []⟩,
          fun _ => some true⟩
        ⟨"foo", ⟨"^2.0", false⟩⟩
      = Except.ok ⟨⟨"foo", ⟨2, 0, 0⟩, ⟨SourceKind.registry, "reg", none⟩⟩, [], [], []⟩) ∧
    (Cargo.select_dep_pkg
        ⟨⟨SourceKind.registry, "reg", none⟩,
          fun _ => [],
          fun pid => Except.ok ⟨pid, [], [], []⟩,
          fun _ => some true⟩
        ⟨"foo", ⟨"2.0.0", false⟩⟩
      = Except.error (yankedMsg ⟨"foo", ⟨"2.0.0", false⟩⟩ ⟨SourceKind.registry, "reg", none⟩)) := by
  constructor
  · obtain ⟨m, hmem, hall, heq⟩ :=
      (claim_C8
        ⟨⟨SourceKind.registry, "reg", none⟩,
          fun _ => [⟨⟨"foo", ⟨2, 0, 0⟩, ⟨SourceKind.registry, "reg", none⟩⟩⟩],
          fun pid => Except.ok ⟨pid, [], [], []⟩,
          fun _ => some true⟩
        ⟨"foo", ⟨"^2.0", false⟩⟩).1 (by simp)
    rw [heq]
    rcases List.mem_singleton.mp hmem with rfl
    rfl
  · exact ((claim_C8
        ⟨⟨SourceKind.registry, "reg", none⟩,
          fun _ => [],
          fun pid => Except.ok ⟨pid, [], [], []⟩,
          fun _ => some true⟩
        ⟨"foo", ⟨"2.0.0", false⟩⟩).2.1 rfl (by rfl)).1

/-- C9, counterexample: two local-path packages at the same root with the
same name and version, differing only in the recorded origin url, hash
alike but are *not* equal — so "treated as the same key (equal, and hashing
equal) iff they share root path, name, and version" fails, and equality
does not agree with hashing's origin-aware discrimination. -/
theorem claim_C9_counterexample :
    (Package.hashKey
        (⟨⟨"p", ⟨1, 0, 0⟩, ⟨SourceKind.path, "file:a", none⟩⟩,
          ["home", "p", "Cargo.toml"], [], []⟩ : Package)
      = Package.hashKey
        (⟨⟨"p", ⟨1, 0, 0⟩, ⟨SourceKind.path, "file:b", none⟩⟩,
          ["home", "p", "Cargo.toml"], [], []⟩ : Package)) ∧
    (Package.eq
        (⟨⟨"p", ⟨1, 0, 0⟩, ⟨SourceKind.path, "file:a", none⟩⟩,
          ["home", "p", "Cargo.toml"], [], []⟩ : Package)
        (⟨⟨"p", ⟨1, 0, 0⟩, ⟨SourceKind.path, "file:b", none⟩⟩,
          ["home", "p", "Cargo.toml"], [], []⟩ : Package) = false) ∧
    (SourceId.is_path ⟨SourceKind.path, "file:a", none⟩ = true) ∧
    (SourceId.is_path ⟨SourceKind.path, "file:b", none⟩ = true) := by
  decide

/-- C9, amended: only *hashing* is origin-aware.  Two local-path packages
hash alike iff they share root path, name and version; two non-path
packages hash alike iff they share the full identity tuple (name, version,
origin kind and url — `precise` is ignored); a path package never hashes
alike a non-path one.  Equality, by contrast, always compares the full
package identity tuple, for path and non-path origins alike, so equality
and hashing do not agree on path-origin packages. -/
theorem claim_C9 (a b : Package) :
    (Package.eq a b = true ↔
      (a.package_id.name = b.package_id.name ∧
       a.package_id.version = b.package_id.version ∧
       a.package_id.source_id.kind = b.package_id.source_id.kind ∧
       a.package_id.source_id.url = b.package_id.source_id.url)) ∧
    (a.package_id.source_id.is_path = true → b.package_id.source_id.is_path = true →
      (a.hashKey = b.hashKey ↔
        (a.root = b.root ∧ a.name = b.name ∧ a.version = b.version))) ∧
    (a.package_id.source_id.is_path = false → b.package_id.source_id.is_path = false →
      (a.hashKey = b.hashKey ↔
        (a.package_id.name = b.package_id.name ∧
         a.package_id.version = b.package_id.version ∧
         a.package_id.source_id.kind = b.package_id.source_id.kind ∧
         a.package_id.source_id.url = b.package_id.source_id.url))) ∧
    (a.package_id.source_id.is_path ≠ b.package_id.source_id.is_path →
      a.hashKey ≠ b.hashKey) := by
  refine ⟨?_, ?_, ?_, ?_⟩
  · simp [Package.eq, PackageId.eqKey, SourceId.eqKey, and_assoc]
  · intro ha hb
    simp [Package.hashKey, ha, hb, Package.name, Package.version, and_assoc]
  · intro ha hb
    simp [Package.hashKey, ha, hb, and_assoc]
  · intro hne
    cases ha : a.package_id.source_id.is_path <;> cases hb : b.package_id.source_id.is_path
    · exact absurd (ha.trans hb.symm) hne
    · simp [Package.hashKey, ha, hb]
    · simp [Package.hashKey, ha, hb]
    · exact absurd (ha.trans hb.symm) hne

/-- C9 witness: the amended hashing rule applied at a concrete pair of
path-origin packages. -/
theorem claim_C9_witness :
    Package.hashKey
        (⟨⟨"p", ⟨1, 0, 0⟩, ⟨SourceKind.path, "file:a", none⟩⟩,
          ["home", "p", "Cargo.toml"], [], []⟩ : Package)
      = Package.hashKey
        (⟨⟨"p", ⟨1, 0, 0⟩, ⟨SourceKind.path, "file:b", none⟩⟩,
          ["home", "p", "Cargo.toml"], [], []⟩ : Package) :=
  ((claim_C9 _ _).2.1 (by decide) (by decide)).mpr (by decide)

/-- C6: on a package set with unique names whose dependencies all resolve
inside the set, `PackageSet.sort` returns, when the name dependency graph
is acyclic, an ordering containing every package exactly once in which no
package depends on a later one; when the graph contains a cycle it returns
`none`, which is distinct from returning an empty package set. -/
theorem claim_C6 (s : PackageSet)
    (hnames : (s.packages.map Package.name).Nodup)
    (hcl : ∀ p ∈ s.packages, ∀ d ∈ p.dependencies,
      ∃ q ∈ s.packages, q.name = d.package_name) :
    ((¬ ∃ c, IsCycle (s.packages.map Package.name) s.depNames c) →
      ∃ out, s.sort = some out ∧ out.packages.Perm s.packages ∧
        out.packages.Pairwise (fun a b => Package.name b ∉ s.depNames (Package.name a))) ∧
    ((∃ c, IsCycle (s.packages.map Package.name) s.depNames c) →
      s.sort = none ∧ s.sort ≠ some (PackageSet.mk [])) := by
  have hclosed := depNames_closed s hcl
  constructor
  · intro hnocyc
    cases htopo : topoSort (s.packages.map Package.name) s.depNames with
    | none =>
        exfalso
        have h' : topoSortAux s.depNames (s.packages.map Package.name).length []
            (s.packages.map Package.name) = none := htopo
        obtain ⟨c, hc1, hc2⟩ := topoAux_none_cycle s.depNames
          (s.packages.map Package.name).length [] (s.packages.map Package.name) rfl
          (fun a ha d hd => Or.inr (hclosed a ha d hd)) h'
        exact hnocyc ⟨c, hc1, hc2⟩
    | some order =>
        have h' : topoSortAux s.depNames (s.packages.map Package.name).length []
            (s.packages.map Package.name) = some order := htopo
        obtain ⟨hperm, hpw, _⟩ := topoAux_props s.depNames
          (s.packages.map Package.name).length [] (s.packages.map Package.name) order h'
          (by simpa using hnames) List.Pairwise.nil (by simp) (by simp)
        have hperm' : order.Perm (s.packages.map Package.name) := by simpa using hperm
        have hallnames : ∀ n ∈ order, ∃ p ∈ s.packages, p.name = n := by
          intro n hn
          have hn' : n ∈ s.packages.map Package.name := hperm'.mem_iff.mp hn
          obtain ⟨p, hp, hpn⟩ := List.mem_map.mp hn'
          exact ⟨p, hp, hpn⟩
        obtain ⟨ps, hps, hnameseq, hmem⟩ := mapM_get_some s order hallnames
        refine ⟨PackageSet.mk ps, ?_, ?_, ?_⟩
        · rw [sort_eq, htopo]
          show (order.mapM s.get).map PackageSet.mk = some (PackageSet.mk ps)
          rw [hps]
          rfl
        · show ps.Perm s.packages
          have hordnd : order.Nodup := hperm'.nodup_iff.mpr hnames
          have hpsnd : ps.Nodup := List.Nodup.of_map Package.name
            (by rw [hnameseq]; exact hordnd)
          have hsubperm : ps.Subperm s.packages :=
            List.subperm_of_subset hpsnd (fun p hp => hmem p hp)
          refine hsubperm.perm_of_length_le ?_
          have h1 : ps.length = order.length := by
            rw [← hnameseq, List.length_map]
          have h2 : order.length = (s.packages.map Package.name).length := hperm'.length_eq
          rw [h1, h2, List.length_map]
        · show ps.Pairwise (fun a b => Package.name b ∉ s.depNames (Package.name a))
          rw [← hnameseq] at hpw
          exact List.pairwise_map.mp hpw
  · intro hcyc
    have hnone : topoSort (s.packages.map Package.name) s.depNames = none := by
      cases htopo : topoSort (s.packages.map Package.name) s.depNames with
      | none => rfl
      | some out =>
          exfalso
          have h' : topoSortAux s.depNames (s.packages.map Package.name).length []
              (s.packages.map Package.name) = some out := htopo
          obtain ⟨hperm, hpw, hself⟩ := topoAux_props s.depNames
            (s.packages.map Package.name).length [] (s.packages.map Package.name) out h'
            (by simpa using hnames) List.Pairwise.nil (by simp) (by simp)
          have hperm' : out.Perm (s.packages.map Package.name) := by simpa using hperm
          obtain ⟨c, hmemc, x, l, hceq, hch⟩ := hcyc
          have hxout : x ∈ out := hperm'.mem_iff.mpr
            (hmemc x (by rw [hceq]; exact List.mem_cons_self x l))
          have hlout : ∀ z ∈ l, z ∈ out := by
            intro z hz
            exact hperm'.mem_iff.mpr
              (hmemc z (by rw [hceq]; exact List.mem_cons_of_mem x hz))
          exact absurd (chain_pos_lt out s.depNames hpw hself l x x hxout hlout hxout hch)
            (lt_irrefl _)
    constructor
    · rw [sort_eq, hnone]
    · rw [sort_eq, hnone]
      intro hcon
      cases hcon

theorem claim_C6_witness :
    ∃ out, (PackageSet.mk [pkgP]).sort = some out ∧
      out.packages.Perm (PackageSet.mk [pkgP]).packages ∧
      out.packages.Pairwise
        (fun a b => Package.name b ∉ (PackageSet.mk [pkgP]).depNames (Package.name a)) :=
  (claim_C6 (PackageSet.mk [pkgP]) (by decide) (by decide)).1
    (by
      rintro ⟨c, hmem, x, l, hceq, hch⟩
      have hx : x ∈ (PackageSet.mk [pkgP]).packages.map Package.name :=
        hmem x (by rw [hceq]; exact List.mem_cons_self x l)
      have hxp : x = "p" := by simpa [pkgP, pidP, Package.name] using hx
      have hdep : (PackageSet.mk [pkgP]).depNames "p" = [] := by decide
      cases l with
      | nil =>
          have hstep : x ∈ (PackageSet.mk [pkgP]).depNames x := List.rel_of_chain_cons hch
          rw [hxp, hdep] at hstep
          cases hstep
      | cons a t =>
          have hstep : a ∈ (PackageSet.mk [pkgP]).depNames x := List.rel_of_chain_cons hch
          rw [hxp, hdep] at hstep
          cases hstep)

end Cargo
